import Mathlib

/-!
Verification of the Schedule Solution Analysis Engine of the
StaffSchedulingWeb repository.

The embedding models, straight from the TypeScript source:
  * the schedule data model (`Shift`, `ScheduleEmployee`, `ScheduleStats`,
    `ScheduleSolution`, raw documents) from `types/schedule.ts`;
  * `parseSolutionFile`, `getShiftForCell`, `getShiftsForCell`,
    `getEmployeeStats` from `lib/services/schedule-parser.ts`;
  * the upload-time schema check from
    `features/schedule/components/schedule-file-upload.tsx`;
  * the `unavailable` helper and the compare-mode `groupedEmployees`
    grouping from the schedule-table components.

JavaScript `Date` values produced by `new Date("YYYY-MM-DD")` are modelled
as plain calendar dates (`SDate`); the code only ever reads
`toISOString().split('T')[0]` (the ISO date string) and `getDate()` (the
day of month), both of which are derived here from the calendar fields.
JavaScript objects used as string-keyed maps (the variables map,
`allShiftWishColors`) are modelled as association lists; JavaScript `Set`s
are modelled as lists, membership being the only operation the code uses.
Fields that the raw JSON may omit are `Option`s, and code paths that would
raise a `TypeError` on a missing field are modelled in `Except`.
-/

namespace StaffScheduling

/-- One decimal digit rendered as its ASCII character. -/
def digitChar (n : Nat) : Char := Char.ofNat (48 + n)

/-- A calendar date, the model of a JS `Date` holding a `YYYY-MM-DD` value. -/
structure SDate where
  year : Nat
  month : Nat
  day : Nat
deriving DecidableEq, Repr

/-- The date part of `Date.toISOString()`: `YYYY-MM-DD` with zero padding. -/
def SDate.isoDate (d : SDate) : String :=
  String.mk [digitChar (d.year / 1000 % 10), digitChar (d.year / 100 % 10),
    digitChar (d.year / 10 % 10), digitChar (d.year % 10), '-',
    digitChar (d.month / 10 % 10), digitChar (d.month % 10), '-',
    digitChar (d.day / 10 % 10), digitChar (d.day % 10)]

/-- `Date.getDate()`: the day of the month. -/
def SDate.getDate (d : SDate) : Nat := d.day

/-- A shift catalog entry (`Shift` in `types/schedule.ts`). -/
structure Shift where
  id : Nat
  name : String
  abbreviation : String
  color : String
  duration : Nat
  is_exclusive : Bool
deriving DecidableEq, Repr

/-- The `wishes` object of a raw employee; the solver may omit either
sub-array, which the parser does **not** default. -/
structure RawWishes where
  shift_wishes : Option (List (Nat × String))
  day_off_wishes : Option (List Nat)
deriving DecidableEq, Repr

/-- An employee as it exists at runtime after `parseSolutionFile`'s
normalisation: the four availability arrays are always present (defaulted
to `[]`), while `wishes` is passed through untouched and may still be
missing pieces. -/
structure ScheduleEmployee where
  id : Nat
  name : String
  level : String
  target_working_time : Nat
  wishes : Option RawWishes
  vacation_days : List Nat
  forbidden_days : List Nat
  vacation_shifts : List (Nat × String)
  forbidden_shifts : List (Nat × String)
deriving DecidableEq, Repr

/-- An employee of a raw solution document: every preference/availability
field may be absent. -/
structure RawEmployee where
  id : Nat
  name : String
  level : String
  target_working_time : Nat
  wishes : Option RawWishes
  vacation_days : Option (List Nat)
  forbidden_days : Option (List Nat)
  vacation_shifts : Option (List (Nat × String))
  forbidden_shifts : Option (List (Nat × String))
deriving DecidableEq, Repr

/-- The eight quality counters (`ScheduleStats`). -/
structure ScheduleStats where
  forward_rotation_violations : Nat
  consecutive_working_days_gt_5 : Nat
  no_free_weekend : Nat
  consecutive_night_shifts_gt_3 : Nat
  total_overtime_hours : Nat
  no_free_days_around_weekend : Nat
  not_free_after_night_shift : Nat
  violated_wish_total : Nat
deriving DecidableEq, Repr

/-- `createEmptyStats()` from `schedule-parser.ts`. -/
def createEmptyStats : ScheduleStats :=
  ⟨0, 0, 0, 0, 0, 0, 0, 0⟩

/-- The sparse decision-variable map, a JS object keyed by tuple strings. -/
def VarMap := List (String × Nat)

/-- Reading `vars[key]` on a JS object: the value if the key is
present, `none` otherwise. -/
/- the source calls this map `variables`; that name is reserved in Lean -/
def varLookup (vars : VarMap) (k : String) : Option Nat :=
  (List.find? (fun p => p.fst == k) vars).map (fun p => p.snd)

/-- The composite key string `(<employeeId>, '<YYYY-MM-DD>', <shiftId>)`
built at every lookup site of the source. -/
def varKey (empId : Nat) (dateStr : String) (shiftId : Nat) : String :=
  "(" ++ toString empId ++ ", \x27" ++ dateStr ++ "\x27, " ++ toString shiftId ++ ")"

/-- `vars[key] === 1` for the composite key of one shift. -/
def isAssigned (vars : VarMap) (empId : Nat) (dateStr : String) (shiftId : Nat) : Bool :=
  varLookup vars (varKey empId dateStr shiftId) == some 1

/-- The accumulation loop of `getShiftsForCell`: walk the shift catalog in
order and push every shift whose variable is set. -/
def collectAssigned (empId : Nat) (dateStr : String) (vars : VarMap) :
    List Shift → List Shift
  | [] => []
  | s :: rest =>
    if isAssigned vars empId dateStr s.id then
      s :: collectAssigned empId dateStr vars rest
    else
      collectAssigned empId dateStr vars rest

/-- `getShiftsForCell` from `schedule-parser.ts`. -/
def getShiftsForCell (empId : Nat) (day : SDate) (shifts : List Shift)
    (vars : VarMap) : List Shift :=
  collectAssigned empId day.isoDate vars shifts

/-- `getShiftForCell` from `schedule-parser.ts`: the first assigned shift
in catalog order, or `null`. -/
def getShiftForCell (empId : Nat) (day : SDate) (shifts : List Shift)
    (vars : VarMap) : Option Shift :=
  List.find? (fun s => isAssigned vars empId day.isoDate s.id) shifts

/-- The cell key `${employee.id}-${dateStr}` joining derived sets to
render-time lookups. -/
def cellKey (empId : Nat) (dateStr : String) : String :=
  toString empId ++ "-" ++ dateStr

/-- `employee.wishes.day_off_wishes.includes(day.getDate())`: a day-off
wish matches a schedule day by calendar day of month. -/
def wishDayMatches (dow : List Nat) (day : SDate) : Bool :=
  dow.contains day.getDate

/-- The four derived annotation collections built by `parseSolutionFile`.
The three `Set<string>`s are lists of cell keys; `allShiftWishColors` is
the assignment history of the `Record<string, string[]>`. -/
structure WishSets where
  fulfilledDayOffCells : List String
  fulfilledShiftWishCells : List String
  allDayOffWishCells : List String
  allShiftWishColors : List (String × List String)
deriving DecidableEq, Repr

/-- The empty initial collections. -/
def emptyWishSets : WishSets := ⟨[], [], [], []⟩

/-- The day-off-wish step of `parseSolutionFile` for one employee/day:
if the day of month is wished off, record the cell in
`allDayOffWishCells`, and in `fulfilledDayOffCells` exactly when no shift
of the catalog is assigned there. -/
def dayOffPass (vars : VarMap) (shifts : List Shift) (empId : Nat)
    (dow : List Nat) (day : SDate) (acc : WishSets) : WishSets :=
  let dateStr := day.isoDate
  let ck := cellKey empId dateStr
  if wishDayMatches dow day then
    let acc1 := { acc with allDayOffWishCells := acc.allDayOffWishCells ++ [ck] }
    let hasShift := shifts.any (fun s => isAssigned vars empId dateStr s.id)
    if !hasShift then
      { acc1 with fulfilledDayOffCells := acc1.fulfilledDayOffCells ++ [ck] }
    else acc1
  else acc

/-- The shift-wish step of `parseSolutionFile` for one employee/day:
collect the display colors of the wished shifts that resolve by
abbreviation (dropping unresolved wishes and falsy colors, as
`.filter(Boolean)` does), and record the cell as fulfilled exactly when
none of the resolvable wished shifts is assigned and the day is not also
a day-off wish. -/
def shiftWishPass (vars : VarMap) (shifts : List Shift) (empId : Nat)
    (dow : List Nat) (sw : List (Nat × String)) (day : SDate)
    (acc : WishSets) : WishSets :=
  let dateStr := day.isoDate
  let ck := cellKey empId dateStr
  let shiftWishes := sw.filter (fun w => w.fst == day.getDate)
  if shiftWishes.length > 0 then
    let colors :=
      ((shiftWishes.map (fun w =>
          (List.find? (fun s => s.abbreviation == w.snd) shifts).map Shift.color)).filterMap id).filter
        (fun c => c != "")
    let acc1 :=
      if colors.length > 0 then
        { acc with allShiftWishColors := acc.allShiftWishColors ++ [(ck, colors)] }
      else acc
    let hasWishedShift := shiftWishes.any (fun w =>
      match List.find? (fun s => s.abbreviation == w.snd) shifts with
      | none => false
      | some s => isAssigned vars empId dateStr s.id)
    if !hasWishedShift && !(wishDayMatches dow day) then
      { acc1 with fulfilledShiftWishCells := acc1.fulfilledShiftWishCells ++ [ck] }
    else acc1
  else acc

/-- The whole wish analysis of `parseSolutionFile` for one employee/day,
once the wish sub-arrays are in hand. -/
def analyzeCell (vars : VarMap) (shifts : List Shift) (empId : Nat)
    (dow : List Nat) (sw : List (Nat × String)) (day : SDate)
    (acc : WishSets) : WishSets :=
  shiftWishPass vars shifts empId dow sw day
    (dayOffPass vars shifts empId dow day acc)

/-- One employee/day iteration of `parseSolutionFile`'s nested `forEach`:
the code dereferences `employee.wishes.day_off_wishes` and
`employee.wishes.shift_wishes` without defaulting, so a missing `wishes`
object or missing sub-array raises a `TypeError` here. -/
def analyzeEmployeeDay (vars : VarMap) (shifts : List Shift)
    (employee : ScheduleEmployee) (day : SDate) (acc : WishSets) :
    Except String WishSets :=
  match employee.wishes with
  | none => .error "TypeError"
  | some w =>
    match w.day_off_wishes, w.shift_wishes with
    | none, _ => .error "TypeError"
    | some _, none => .error "TypeError"
    | some dow, some sw => .ok (analyzeCell vars shifts employee.id dow sw day acc)

/-- The full nested `forEach` over employees and days. -/
def analyzeAll (vars : VarMap) (shifts : List Shift)
    (employees : List ScheduleEmployee) (days : List SDate) :
    Except String WishSets :=
  employees.foldlM
    (fun acc e => days.foldlM (fun acc2 d => analyzeEmployeeDay vars shifts e d acc2) acc)
    emptyWishSets

/-- `emp.wishes.day_off_wishes` once the analysis is known to have
succeeded (`[]` is never read on unresolved employees). -/
def dowOf (e : ScheduleEmployee) : List Nat :=
  match e.wishes with
  | some ⟨_, some dow⟩ => dow
  | _ => []

/-- `emp.wishes.shift_wishes` once the analysis is known to have
succeeded. -/
def swOf (e : ScheduleEmployee) : List (Nat × String) :=
  match e.wishes with
  | some ⟨some sw, _⟩ => sw
  | _ => []

/-- `true` when the employee's wish sub-arrays are all present, so that
the wish analysis can read them without a `TypeError`. -/
def wishesComplete (e : ScheduleEmployee) : Bool :=
  match e.wishes with
  | some w => w.day_off_wishes.isSome && w.shift_wishes.isSome
  | none => false

/-- A raw solution document: the four top-level fields plus `stats`, any
of which the uploaded JSON may lack.  The `days` strings are modelled as
the calendar dates they denote, `new Date` being the identity here. -/
structure RawSolution where
  vars : Option VarMap
  employees : Option (List RawEmployee)
  shifts : Option (List Shift)
  days : Option (List SDate)
  stats : Option ScheduleStats

/-- The per-employee normalisation of `parseSolutionFile`: spread the raw
employee and default the four availability arrays — and only those — to
`[]`. -/
def normalizeEmployee (e : RawEmployee) : ScheduleEmployee :=
  { id := e.id
    name := e.name
    level := e.level
    target_working_time := e.target_working_time
    wishes := e.wishes
    vacation_days := e.vacation_days.getD []
    forbidden_days := e.forbidden_days.getD []
    vacation_shifts := e.vacation_shifts.getD []
    forbidden_shifts := e.forbidden_shifts.getD [] }

/-- The decoded `ScheduleSolution` (the source's interface of the same
name). -/
structure ScheduleSolution where
  vars : VarMap
  employees : List ScheduleEmployee
  shifts : List Shift
  days : List SDate
  stats : ScheduleStats
  fulfilledDayOffCells : List String
  fulfilledShiftWishCells : List String
  allDayOffWishCells : List String
  allShiftWishColors : List (String × List String)

/-- `parseSolutionFile` from `schedule-parser.ts`.  `variables`,
`employees` and `shifts` are defaulted when absent (`|| {}`, `|| []`);
`jsonData.days.map(...)` raises a `TypeError` when `days` is absent;
`stats` falls back to `createEmptyStats()`; then the wish analysis runs. -/
def parseSolutionFile (jsonData : RawSolution) : Except String ScheduleSolution :=
  let vars := jsonData.vars.getD []
  let employees := (jsonData.employees.getD []).map normalizeEmployee
  let shifts := jsonData.shifts.getD []
  match jsonData.days with
  | none => .error "TypeError"
  | some days =>
    let stats := jsonData.stats.getD createEmptyStats
    match analyzeAll vars shifts employees days with
    | .error msg => .error msg
    | .ok sets =>
      .ok ⟨vars, employees, shifts, days, stats,
        sets.fulfilledDayOffCells, sets.fulfilledShiftWishCells,
        sets.allDayOffWishCells, sets.allShiftWishColors⟩

/-- The upload-time schema check of `handleFileUpload`
(`schedule-file-upload.tsx`): reject unless all four top-level fields are
present. -/
def validateSolutionUpload (jsonData : RawSolution) : Except String RawSolution :=
  if jsonData.vars.isNone || jsonData.employees.isNone
      || jsonData.shifts.isNone || jsonData.days.isNone then
    .error "Invalid solution file format"
  else
    .ok jsonData

/-- The decode pipeline a raw document goes through: the upload check
followed by `parseSolutionFile`. -/
def decodeSolution (jsonData : RawSolution) : Except String ScheduleSolution :=
  match validateSolutionUpload jsonData with
  | .error msg => .error msg
  | .ok checked => parseSolutionFile checked

/-- The record returned by `getEmployeeStats`; the JS floating-point
hours are modelled as exact rationals. -/
structure EmployeeStats where
  actualHours : ℚ
  targetHours : ℚ
  totalShifts : Nat
  hasOvertime : Bool

/-- `getEmployeeStats` from `schedule-parser.ts`: accumulate minutes and
shift count over every day's assigned shifts, convert to hours, and flag
overtime on a strict 7.67-hour deviation. -/
def getEmployeeStats (employee : ScheduleEmployee) (days : List SDate)
    (shifts : List Shift) (vars : VarMap) : EmployeeStats :=
  let acc := days.foldl
    (fun (a : Nat × Nat) day =>
      (getShiftsForCell employee.id day shifts vars).foldl
        (fun (b : Nat × Nat) shift => (b.fst + shift.duration, b.snd + 1)) a)
    (0, 0)
  let actualHours : ℚ := (acc.fst : ℚ) / 60
  let targetHours : ℚ := (employee.target_working_time : ℚ) / 60
  let hasOvertime := decide (|actualHours - targetHours| > (767 : ℚ) / 100)
  ⟨actualHours, targetHours, acc.snd, hasOvertime⟩

/-- The `unavailable(employee, day)` helper of the schedule tables
(day-level): vacation or forbidden day. -/
def unavailableDay (employee : ScheduleEmployee) (day : Nat) : Bool :=
  employee.vacation_days.contains day || employee.forbidden_days.contains day

/-- The `unavailable(employee, day, shift)` helper of the schedule tables
(shift-level): a matching `[day, abbreviation]` pair in the vacation or
forbidden shift lists. -/
def unavailableShift (employee : ScheduleEmployee) (day : Nat) (shift : Shift) : Bool :=
  employee.vacation_shifts.any
      (fun p => p.fst == day && p.snd == shift.abbreviation)
    || employee.forbidden_shifts.any
      (fun p => p.fst == day && p.snd == shift.abbreviation)

/-- What the table renders for the cell in column `dayIdx`: the source
calls `unavailable(employee, dayIdx + 1)` — the 1-based column position,
not the day of month of `days[dayIdx]`. -/
def renderedCellUnavailable (employee : ScheduleEmployee) (dayIdx : Nat) : Bool :=
  unavailableDay employee (dayIdx + 1)

/-- The shift-level analogue: `unavailable(employee, dayIdx + 1, s)`. -/
def renderedShiftUnavailable (employee : ScheduleEmployee) (dayIdx : Nat)
    (shift : Shift) : Bool :=
  unavailableShift employee (dayIdx + 1) shift

/-- `String.prototype.includes` on character lists: some tail of the
haystack starts with the needle. -/
def containsSub (needle : List Char) : List Char → Bool
  | [] => needle.isEmpty
  | c :: t => needle.isPrefixOf (c :: t) || containsSub needle t

/-- `haystack.includes(sub)` on strings. -/
def strIncludes (haystack sub : String) : Bool :=
  containsSub sub.data haystack.data

/-- `s.toLowerCase()`. -/
def toLowerStr (s : String) : String := String.map Char.toLower s

/-- The search filter of the compare-mode grouping: name and level are
compared lowercased, the id `toString` is compared against the raw
search term, exactly as in `groupedEmployees`. -/
def matchesEmployee (searchTerm : String) (e : ScheduleEmployee) : Bool :=
  strIncludes (toLowerStr e.name) (toLowerStr searchTerm)
    || strIncludes (toLowerStr e.level) (toLowerStr searchTerm)
    || strIncludes (toString e.id) searchTerm

/-- One schedule handed to the compare-mode table: a decoded solution
tagged with its schedule id and seed.  Only the fields the grouping reads
are carried. -/
structure ComparedSchedule where
  scheduleId : String
  seed : Nat
  employees : List ScheduleEmployee
deriving Repr

/-- One entry of a comparison group: the employee as found in one
schedule, tagged with that schedule's id and seed. -/
structure GroupEntry where
  employee : ScheduleEmployee
  scheduleId : String
  seed : Nat
deriving DecidableEq, Repr

/-- One `employeeMap` insertion: a JS `Map` keeps first-insertion key
order, and `push` appends to the bucket of an existing key. -/
def insertEmployee (m : List (Nat × List ScheduleEmployee))
    (e : ScheduleEmployee) : List (Nat × List ScheduleEmployee) :=
  if m.any (fun p => p.fst == e.id) then
    m.map (fun p => if p.fst == e.id then (p.fst, p.snd ++ [e]) else p)
  else
    m ++ [(e.id, [e])]

/-- The `employeeMap` of `groupedEmployees`: every employee of every
schedule, grouped by id, in scan order. -/
def buildEmployeeMap (schedules : List ComparedSchedule) :
    List (Nat × List ScheduleEmployee) :=
  schedules.foldl (fun m sch => sch.employees.foldl insertEmployee m) []

/-- The group built for one employee id: map every schedule to its
employee with this id and drop the schedules that have none
(`.map(...).filter(item => item.employee)` in the source). -/
def groupFor (schedules : List ComparedSchedule) (employeeId : Nat) :
    List GroupEntry :=
  schedules.filterMap (fun sch =>
    (List.find? (fun e => e.id == employeeId) sch.employees).map
      (fun e => ⟨e, sch.scheduleId, sch.seed⟩))

/-- `groupedEmployees` from the compare-mode schedule table: walk the
`employeeMap` in key order, filter on the first stored employee of each
bucket (`employees[0]`), and emit the group for every id that passes.
A bucket is never empty, so the `none` branch of `head?` is
unreachable. -/
def groupedEmployees (schedules : List ComparedSchedule)
    (searchTerm : String) : List (List GroupEntry) :=
  (buildEmployeeMap schedules).foldl
    (fun groups p =>
      match p.snd.head? with
      | none => groups
      | some firstEmployee =>
        if searchTerm.isEmpty || matchesEmployee searchTerm firstEmployee then
          groups ++ [groupFor schedules p.fst]
        else groups)
    []

/-- What one compare-mode render of `ScheduleTable` produces: the
terminal "no schedules to compare" message, or the grouped table. -/
inductive CompareRender where
  | terminal : CompareRender
  | table : List (List GroupEntry) → CompareRender
deriving DecidableEq, Repr

/-- The compare-mode data-extraction `useMemo` of `ScheduleTable`: it
reads `props.schedules[0]` and dereferences its fields without checking
that the list is non-empty, so with an empty schedules list the read of
`firstSchedule.employees` raises a `TypeError`.  Only the employees
field is carried by this model; the other extracted fields come from the
same `firstSchedule` object and fail in the same way. -/
def extractCompareData (schedules : List ComparedSchedule) :
    Except String (List ScheduleEmployee) :=
  match schedules.head? with
  | none => .error "TypeError"
  | some firstSchedule => .ok firstSchedule.employees

/-- One compare-mode render of `ScheduleTable`.  React evaluates the
hooks — the data-extraction `useMemo` first, then the grouping — before
any return statement, so the extraction runs (and can raise) before the
`schedules.length === 0` early return that would display the terminal
"no schedules to compare" message. -/
def renderCompareTable (schedules : List ComparedSchedule)
    (searchTerm : String) : Except String CompareRender :=
  match extractCompareData schedules with
  | .error msg => .error msg
  | .ok _ =>
    if schedules.length == 0 then .ok .terminal
    else .ok (.table (groupedEmployees schedules searchTerm))

/-- All employees of all schedules in scan order (the order in which the
`employeeMap` is fed). -/
def flatEmps (schedules : List ComparedSchedule) : List ScheduleEmployee :=
  schedules.flatMap (fun sch => sch.employees)

/-- The employee ids in order of first appearance, given the ids already
seen. -/
def firstIdsFrom (seen : List Nat) : List ScheduleEmployee → List Nat
  | [] => []
  | e :: t =>
    if e.id ∈ seen then firstIdsFrom seen t
    else e.id :: firstIdsFrom (seen ++ [e.id]) t

/-- The employee ids in order of first appearance. -/
def firstIds (l : List ScheduleEmployee) : List Nat := firstIdsFrom [] l

/-- The closed form of the `employeeMap`: one entry per first-appearing
id, holding every employee with that id in scan order. -/
def mkMapOf (pool : List ScheduleEmployee) : List (Nat × List ScheduleEmployee) :=
  (firstIds pool).map (fun id => (id, pool.filter (fun e => e.id == id)))

/-! ### Concrete sample inputs

Small schedules used to instantiate the theorems on explicit data. -/

/-- A morning shift of 4600 minutes. -/
def exShiftF : Shift := ⟨1, "Fruehdienst", "F", "#3b82f6", 4600, false⟩

/-- A night shift of 4400 minutes. -/
def exShiftN : Shift := ⟨2, "Nachtdienst", "N", "#ef4444", 4400, false⟩

/-- A two-shift catalog. -/
def exCatalog : List Shift := [exShiftF, exShiftN]

/-- January 10. -/
def exDay1 : SDate := ⟨2024, 1, 10⟩

/-- January 11. -/
def exDay2 : SDate := ⟨2024, 1, 11⟩

/-- Shift `F` assigned to employee 5 on both days: 9200 minutes. -/
def exVars1 : VarMap :=
  [(varKey 5 exDay1.isoDate 1, 1), (varKey 5 exDay2.isoDate 1, 1)]

/-- The same entries in the other order. -/
def exVars1Perm : VarMap :=
  [(varKey 5 exDay2.isoDate 1, 1), (varKey 5 exDay1.isoDate 1, 1)]

/-- Shift `F` on day 10 and shift `N` on day 11: 9000 minutes. -/
def exVars2 : VarMap :=
  [(varKey 5 exDay1.isoDate 1, 1), (varKey 5 exDay2.isoDate 2, 1)]

/-- Employee 5: 9600 target minutes, day-off wish for day 10, shift wish
`(10, "F")`, a vacation day on day 1. -/
def exEmp5Raw : RawEmployee :=
  ⟨5, "Alice Ann", "Senior", 9600, some ⟨some [(10, "F")], some [10]⟩,
    some [1], none, none, none⟩

/-- A raw solution document containing employee 5, both shifts and both
days, with shift `F` assigned on both days. -/
def exRaw : RawSolution :=
  ⟨some exVars1, some [exEmp5Raw], some exCatalog, some [exDay1, exDay2], none⟩

/-- Employee 5 after normalisation. -/
def exEmp5 : ScheduleEmployee := normalizeEmployee exEmp5Raw

/-- An employee whose `wishes` object lacks `day_off_wishes`. -/
def exEmpNoDow : RawEmployee :=
  ⟨6, "Bernd", "Junior", 9600, some ⟨some [], none⟩, none, none, none, none⟩

/-- A raw document with all four top-level fields present whose single
employee lacks the `day_off_wishes` sub-array. -/
def exRawBadWishes : RawSolution :=
  ⟨some [], some [exEmpNoDow], some exCatalog, some [exDay1], none⟩

/-- A complete, empty wish record. -/
def exEmptyWishes : Option RawWishes := some ⟨some [], some []⟩

/-- Employee 7 as found in the first compared schedule. -/
def exEmp7a : ScheduleEmployee :=
  ⟨7, "Greta Grau", "Mid", 9600, exEmptyWishes, [], [], [], []⟩

/-- Employee 7 as found in the second compared schedule. -/
def exEmp7b : ScheduleEmployee :=
  ⟨7, "Greta Grau", "Mid", 9600, exEmptyWishes, [2], [], [], []⟩

/-- Employee 9, present only in the first compared schedule. -/
def exEmp9 : ScheduleEmployee :=
  ⟨9, "Ines Istrati", "Junior", 4800, exEmptyWishes, [], [], [], []⟩

/-- First compared schedule: employees 7 and 9, seed 1. -/
def exSchedX : ComparedSchedule := ⟨"sched-1", 1, [exEmp7a, exEmp9]⟩

/-- Second compared schedule: employee 7 only, seed 2. -/
def exSchedY : ComparedSchedule := ⟨"sched-2", 2, [exEmp7b]⟩

/-- An employee with day 15 as vacation day and as day-off wish. -/
def exC10Emp : ScheduleEmployee :=
  ⟨11, "Carla", "Mid", 9600, some ⟨some [], some [15]⟩, [15], [], [], []⟩

/-- January 15, the only day of `exC10Emp`'s one-day schedule. -/
def exMid15 : SDate := ⟨2024, 1, 15⟩

/-- The decoded form of `exRaw`: shift `F` is assigned on the wished-off
day 10, so the day-off wish is recorded but not fulfilled, and the shift
wish `(10, "F")` is likewise unfulfilled. -/
def exSolVal : ScheduleSolution :=
  ⟨exVars1, [exEmp5], exCatalog, [exDay1, exDay2], createEmptyStats,
    [], [], [cellKey 5 exDay1.isoDate],
    [(cellKey 5 exDay1.isoDate, ["#3b82f6"])]⟩

/-- `exRaw` with an empty variables map: nothing is assigned. -/
def exRawFree : RawSolution :=
  ⟨some [], some [exEmp5Raw], some exCatalog, some [exDay1, exDay2], none⟩

/-- The decoded form of `exRawFree`: with no assignment on day 10 the
day-off wish is fulfilled, and the shift wish is suppressed by the
day-off wish on the same day. -/
def exSolFree : ScheduleSolution :=
  ⟨[], [exEmp5], exCatalog, [exDay1, exDay2], createEmptyStats,
    [cellKey 5 exDay1.isoDate], [], [cellKey 5 exDay1.isoDate],
    [(cellKey 5 exDay1.isoDate, ["#3b82f6"])]⟩

/-- Claim C8 as literally stated: a cell can be in `allDayOffWishCells`
without being in `fulfilledDayOffCells` (first conjunct), and the
converse containment — every fulfilled cell is an all-wish cell — is
**not** guaranteed (second conjunct). -/
def c8ClaimStatement : Prop :=
  (∃ (raw : RawSolution) (sol : ScheduleSolution) (ck : String),
      parseSolutionFile raw = .ok sol
        ∧ ck ∈ sol.allDayOffWishCells ∧ ck ∉ sol.fulfilledDayOffCells)
    ∧ ¬(∀ (raw : RawSolution) (sol : ScheduleSolution) (ck : String),
        parseSolutionFile raw = .ok sol →
        ck ∈ sol.fulfilledDayOffCells → ck ∈ sol.allDayOffWishCells)

/-! ### Basic lemmas about the assignment index -/

/-- The `getShiftsForCell` loop is the catalog filtered by `isAssigned`. -/
theorem collectAssigned_eq_filter (empId : Nat) (dateStr : String)
    (vars : VarMap) (shifts : List Shift) :
    collectAssigned empId dateStr vars shifts
      = shifts.filter (fun s => isAssigned vars empId dateStr s.id) := by
  induction shifts with
  | nil => rfl
  | cons s rest ih =>
    cases h : isAssigned vars empId dateStr s.id with
    | true => simp [collectAssigned, h, List.filter_cons, ih]
    | false => simp [collectAssigned, h, List.filter_cons, ih]

/-- Lookup in the variables map sees through permutation of the entries
when the keys are distinct. -/
theorem varLookup_perm {v1 v2 : VarMap} (hperm : List.Perm v1 v2)
    (hnd : (v1.map Prod.fst).Nodup) (k : String) :
    varLookup v1 k = varLookup v2 k := by
  unfold varLookup
  cases hfind : List.find? (fun p => p.fst == k) v1 with
  | none =>
    have h1 := List.find?_eq_none.mp hfind
    have h2 : List.find? (fun p => p.fst == k) v2 = none :=
      List.find?_eq_none.mpr (fun x hx => h1 x (hperm.mem_iff.mpr hx))
    rw [h2]
  | some q =>
    have hq := List.find?_some hfind
    have hqm := List.mem_of_find?_eq_some hfind
    have hsome : (List.find? (fun p => p.fst == k) v2).isSome := by
      rw [List.find?_isSome]
      exact ⟨q, hperm.mem_iff.mp hqm, hq⟩
    obtain ⟨r, hr⟩ := Option.isSome_iff_exists.mp hsome
    have hrq := List.find?_some hr
    have hrm := hperm.mem_iff.mpr (List.mem_of_find?_eq_some hr)
    have hqr : q = r := by
      refine List.inj_on_of_nodup_map hnd hqm hrm ?_
      have h1 : q.fst = k := by simpa using hq
      have h2 : r.fst = k := by simpa using hrq
      rw [h1, h2]
    rw [hr, hqr]

/-- A map entry under a different key is invisible to lookup. -/
theorem varLookup_cons_ne (k k' : String) (v : Nat) (vars : VarMap)
    (h : k ≠ k') :
    varLookup ((k, v) :: vars) k' = varLookup vars k' := by
  unfold varLookup
  rw [List.find?_cons_of_neg]
  simpa using h

/-- `find?` only depends on the predicate's values on the list. -/
theorem find?_congr_on {α : Type} (p q : α → Bool) (l : List α)
    (h : ∀ a ∈ l, p a = q a) : List.find? p l = List.find? q l := by
  induction l with
  | nil => rfl
  | cons a t ih =>
    have ha := h a (by simp)
    cases hpa : p a with
    | true =>
      rw [List.find?_cons_of_pos _ hpa, List.find?_cons_of_pos _ (ha ▸ hpa)]
    | false =>
      rw [List.find?_cons_of_neg _ (by simp [hpa]),
        List.find?_cons_of_neg _ (by simp [← ha, hpa]),
        ih (fun a ha' => h a (by simp [ha']))]

/-! ### Claim theorems: assignment index (C4, C7) -/

/-- **C4.** `getShiftsForCell` returns exactly the subsequence of the
shift catalog, in catalog order, of the shifts whose composite key maps
to 1; the result is a sublist of the catalog (so it may have 0, 1 or
several elements) and is unchanged when the variables map's entries are
reordered, i.e. it does not depend on the map's key iteration order. -/
theorem c4_assignedShifts_catalog_order (empId : Nat) (day : SDate)
    (shifts : List Shift) (v1 v2 : VarMap)
    (hperm : List.Perm v1 v2) (hnd : (v1.map Prod.fst).Nodup) :
    getShiftsForCell empId day shifts v1
        = shifts.filter (fun s => isAssigned v1 empId day.isoDate s.id)
      ∧ List.Sublist (getShiftsForCell empId day shifts v1) shifts
      ∧ getShiftsForCell empId day shifts v1
        = getShiftsForCell empId day shifts v2 := by
  refine ⟨collectAssigned_eq_filter empId day.isoDate v1 shifts, ?_, ?_⟩
  · rw [getShiftsForCell, collectAssigned_eq_filter]
    exact List.filter_sublist shifts
  · rw [getShiftsForCell, getShiftsForCell, collectAssigned_eq_filter,
      collectAssigned_eq_filter]
    refine List.filter_congr (fun s _ => ?_)
    unfold isAssigned
    rw [varLookup_perm hperm hnd]

/-- Witness for C4 on concrete data: a two-entry variables map and its
reversal give the same catalog-ordered answer. -/
theorem c4_assignedShifts_catalog_order_witness :
    getShiftsForCell 5 exDay1 exCatalog exVars1
        = exCatalog.filter (fun s => isAssigned exVars1 5 exDay1.isoDate s.id)
      ∧ List.Sublist (getShiftsForCell 5 exDay1 exCatalog exVars1) exCatalog
      ∧ getShiftsForCell 5 exDay1 exCatalog exVars1
        = getShiftsForCell 5 exDay1 exCatalog exVars1Perm :=
  c4_assignedShifts_catalog_order 5 exDay1 exCatalog exVars1 exVars1Perm
    (by decide) (by decide)

/-- **C7.** Variable-map entries whose key is not the exact composite key
of a catalog shift for the queried employee and date have no effect on
the assignment-lookup operations: adding such an entry changes neither
`getShiftsForCell` nor `getShiftForCell` nor any catalog `isAssigned`
query; the lookups are total functions, so malformed keys never raise. -/
theorem c7_unrecognized_keys_unassigned (empId : Nat) (day : SDate)
    (shifts : List Shift) (vars : VarMap) (k : String) (v : Nat)
    (hk : ∀ s ∈ shifts, k ≠ varKey empId day.isoDate s.id) :
    getShiftsForCell empId day shifts ((k, v) :: vars)
        = getShiftsForCell empId day shifts vars
      ∧ getShiftForCell empId day shifts ((k, v) :: vars)
        = getShiftForCell empId day shifts vars
      ∧ ∀ s ∈ shifts, isAssigned ((k, v) :: vars) empId day.isoDate s.id
        = isAssigned vars empId day.isoDate s.id := by
  have hassign : ∀ s ∈ shifts,
      isAssigned ((k, v) :: vars) empId day.isoDate s.id
        = isAssigned vars empId day.isoDate s.id := by
    intro s hs
    unfold isAssigned
    rw [varLookup_cons_ne _ _ _ _ (hk s hs)]
  refine ⟨?_, ?_, hassign⟩
  · rw [getShiftsForCell, getShiftsForCell, collectAssigned_eq_filter,
      collectAssigned_eq_filter]
    exact List.filter_congr (fun s hs => hassign s hs)
  · exact find?_congr_on _ _ _ (fun s hs => hassign s hs)

/-- Witness for C7: a malformed tuple string inserted in front of a
concrete variables map changes no query. -/
theorem c7_unrecognized_keys_unassigned_witness :
    getShiftsForCell 5 exDay1 exCatalog (("(oops", 1) :: exVars1)
        = getShiftsForCell 5 exDay1 exCatalog exVars1
      ∧ getShiftForCell 5 exDay1 exCatalog (("(oops", 1) :: exVars1)
        = getShiftForCell 5 exDay1 exCatalog exVars1
      ∧ ∀ s ∈ exCatalog, isAssigned (("(oops", 1) :: exVars1) 5 exDay1.isoDate s.id
        = isAssigned exVars1 5 exDay1.isoDate s.id :=
  c7_unrecognized_keys_unassigned 5 exDay1 exCatalog exVars1 "(oops" 1
    (by decide)

/-! ### Claim theorems: empty comparison (C9) -/

/-- **C9.** Grouping zero schedules does yield an empty grouping, but the
compare-mode `ScheduleTable` never reaches its "no schedules to compare"
terminal state: the data-extraction hook reads
`props.schedules[0].employees` before the early return, so rendering
with an empty schedules list raises a `TypeError`.  With at least one
schedule the render does reach the grouped table. -/
theorem c9_empty_comparison_crash :
    (∀ searchTerm, groupedEmployees [] searchTerm = [])
      ∧ renderCompareTable [] "" = .error "TypeError"
      ∧ ∀ (sch : ComparedSchedule) (searchTerm : String),
          renderCompareTable [sch] searchTerm
            = .ok (.table (groupedEmployees [sch] searchTerm)) :=
  ⟨fun _ => rfl, rfl, fun _ _ => rfl⟩

/-! ### Claim theorems: positional unavailability (C10) -/

/-- **C10.** The rendered unavailability of the cell in column `dayIdx`
is decided by membership of `dayIdx + 1` — the 1-based column position —
in `vacation_days ∪ forbidden_days` (day level) resp. of the pair
`(dayIdx + 1, abbreviation)` in `vacation_shifts ∪ forbidden_shifts`
(shift level).  When the days list is contiguous from the first of a
month (`days[j]` has day-of-month `j + 1`) this coincides with
day-of-month matching; on `exC10Emp`'s one-day schedule for January 15
it visibly does not, while the wish analysis keyed by `getDate` does
match that day. -/
theorem c10_positional_unavailability (employee : ScheduleEmployee)
    (days : List SDate) (dayIdx : Nat) (shift : Shift)
    (h : dayIdx < days.length) :
    (renderedCellUnavailable employee dayIdx
        = (employee.vacation_days.contains (dayIdx + 1)
            || employee.forbidden_days.contains (dayIdx + 1)))
      ∧ (renderedShiftUnavailable employee dayIdx shift
          = (employee.vacation_shifts.any
              (fun p => p.fst == dayIdx + 1 && p.snd == shift.abbreviation)
            || employee.forbidden_shifts.any
              (fun p => p.fst == dayIdx + 1 && p.snd == shift.abbreviation)))
      ∧ ((∀ j, (hj : j < days.length) → (days.get ⟨j, hj⟩).getDate = j + 1) →
          renderedCellUnavailable employee dayIdx
            = unavailableDay employee ((days.get ⟨dayIdx, h⟩).getDate))
      ∧ (renderedCellUnavailable exC10Emp 0 = false
          ∧ exC10Emp.vacation_days.contains exMid15.getDate = true
          ∧ wishDayMatches (dowOf exC10Emp) exMid15 = true) := by
  refine ⟨rfl, rfl, ?_, by decide⟩
  intro hcontig
  rw [renderedCellUnavailable, hcontig dayIdx h]

/-- Witness for C10 on a contiguous two-day January schedule. -/
theorem c10_positional_unavailability_witness :
    renderedCellUnavailable exC10Emp 0
      = unavailableDay exC10Emp
          (([⟨2024, 1, 1⟩, ⟨2024, 1, 2⟩] : List SDate).get ⟨0, by decide⟩).getDate :=
  (c10_positional_unavailability exC10Emp [⟨2024, 1, 1⟩, ⟨2024, 1, 2⟩] 0 exShiftF
    (by decide)).2.2.1 (by decide)

/-! ### Claim theorems: employee statistics (C2) -/

/-- The inner `forEach` of `getEmployeeStats` sums durations and counts
assignments. -/
theorem foldl_duration_count (l : List Shift) (a : Nat × Nat) :
    l.foldl (fun (b : Nat × Nat) shift => (b.fst + shift.duration, b.snd + 1)) a
      = (a.fst + (l.map Shift.duration).sum, a.snd + l.length) := by
  induction l generalizing a with
  | nil => simp
  | cons s t ih =>
    rw [List.foldl_cons, ih]
    simp only [List.map_cons, List.sum_cons, List.length_cons, Prod.mk.injEq]
    omega

/-- The outer `forEach` of `getEmployeeStats` accumulates per-day sums. -/
theorem statsAcc_eq (empId : Nat) (days : List SDate) (shifts : List Shift)
    (vars : VarMap) (a : Nat × Nat) :
    days.foldl
        (fun (acc : Nat × Nat) day =>
          (getShiftsForCell empId day shifts vars).foldl
            (fun (b : Nat × Nat) shift => (b.fst + shift.duration, b.snd + 1)) acc)
        a
      = (a.fst + (days.map
            (fun d => ((getShiftsForCell empId d shifts vars).map Shift.duration).sum)).sum,
         a.snd + (days.map
            (fun d => (getShiftsForCell empId d shifts vars).length)).sum) := by
  induction days generalizing a with
  | nil => simp
  | cons d t ih =>
    rw [List.foldl_cons]
    show List.foldl _ ((getShiftsForCell empId d shifts vars).foldl _ a) t = _
    rw [foldl_duration_count, ih]
    simp [Nat.add_assoc]

/-- **C2.** `getEmployeeStats` returns `actualHours` equal to the summed
assigned minutes over all days divided by 60, `targetHours` equal to
`target_working_time / 60`, `totalShifts` equal to the number of
assignments, and `hasOvertime` exactly when the deviation strictly
exceeds 7.67 hours; concretely, with a 9600-minute target, 9200 assigned
minutes give no overtime and 9000 assigned minutes give overtime. -/
theorem c2_getEmployeeStats (employee : ScheduleEmployee) (days : List SDate)
    (shifts : List Shift) (vars : VarMap) :
    ((getEmployeeStats employee days shifts vars).actualHours
        = ((days.map (fun d =>
            ((getShiftsForCell employee.id d shifts vars).map Shift.duration).sum)).sum : ℚ) / 60)
      ∧ ((getEmployeeStats employee days shifts vars).targetHours
          = (employee.target_working_time : ℚ) / 60)
      ∧ ((getEmployeeStats employee days shifts vars).totalShifts
          = (days.map (fun d => (getShiftsForCell employee.id d shifts vars).length)).sum)
      ∧ ((getEmployeeStats employee days shifts vars).hasOvertime = true
          ↔ |(getEmployeeStats employee days shifts vars).actualHours
              - (getEmployeeStats employee days shifts vars).targetHours|
            > (767 : ℚ) / 100)
      ∧ (getEmployeeStats exEmp5 [exDay1, exDay2] exCatalog exVars1).hasOvertime = false
      ∧ (getEmployeeStats exEmp5 [exDay1, exDay2] exCatalog exVars2).hasOvertime = true := by
  refine ⟨?_, rfl, ?_, ?_, ?_, ?_⟩
  · show ((days.foldl _ ((0 : Nat), (0 : Nat))).fst : ℚ) / 60 = _
    rw [statsAcc_eq]
    simp
  · show (days.foldl _ ((0 : Nat), (0 : Nat))).snd = _
    rw [statsAcc_eq]
    simp
  · show decide _ = true ↔ _
    rw [decide_eq_true_iff]
    exact Iff.rfl
  · show decide (|((9200 : Nat) : ℚ) / 60 - ((9600 : Nat) : ℚ) / 60| > (767 : ℚ) / 100)
      = false
    rw [decide_eq_false_iff_not]
    rw [show ((9200 : Nat) : ℚ) / 60 - ((9600 : Nat) : ℚ) / 60 = -(20 / 3) by
      push_cast
      norm_num]
    rw [abs_neg, abs_of_nonneg (by norm_num)]
    norm_num
  · show decide (|((9000 : Nat) : ℚ) / 60 - ((9600 : Nat) : ℚ) / 60| > (767 : ℚ) / 100)
      = true
    rw [decide_eq_true_iff]
    rw [show ((9000 : Nat) : ℚ) / 60 - ((9600 : Nat) : ℚ) / 60 = -(10 : ℚ) by
      push_cast
      norm_num]
    rw [abs_neg, abs_of_nonneg (by norm_num)]
    norm_num

/-! ### Membership in the derived wish sets, cell by cell -/

/-- The day-off pass never touches the shift-wish set. -/
theorem dayOffPass_fSWC (vars : VarMap) (shifts : List Shift) (empId : Nat)
    (dow : List Nat) (day : SDate) (acc : WishSets) :
    (dayOffPass vars shifts empId dow day acc).fulfilledShiftWishCells
      = acc.fulfilledShiftWishCells := by
  simp only [dayOffPass]
  split_ifs <;> rfl

/-- The day-off pass never touches the color record. -/
theorem dayOffPass_colors (vars : VarMap) (shifts : List Shift) (empId : Nat)
    (dow : List Nat) (day : SDate) (acc : WishSets) :
    (dayOffPass vars shifts empId dow day acc).allShiftWishColors
      = acc.allShiftWishColors := by
  simp only [dayOffPass]
  split_ifs <;> rfl

/-- A cell is added to `fulfilledDayOffCells` by the day-off pass exactly
when the day of month is wished off and no catalog shift is assigned. -/
theorem dayOffPass_fDOC (vars : VarMap) (shifts : List Shift) (empId : Nat)
    (dow : List Nat) (day : SDate) (acc : WishSets) (x : String) :
    x ∈ (dayOffPass vars shifts empId dow day acc).fulfilledDayOffCells
      ↔ x ∈ acc.fulfilledDayOffCells
        ∨ (x = cellKey empId day.isoDate
            ∧ wishDayMatches dow day = true
            ∧ shifts.any (fun s => isAssigned vars empId day.isoDate s.id) = false) := by
  simp only [dayOffPass]
  split_ifs with h1 h2
  · simp only [Bool.not_eq_true'] at h2
    simp [h1, h2, List.mem_append]
  · simp only [Bool.not_eq_true', Bool.not_eq_false] at h2
    simp [h1, h2]
  · simp only [Bool.not_eq_true] at h1
    simp [h1]

/-- A cell is added to `allDayOffWishCells` by the day-off pass exactly
when the day of month is wished off. -/
theorem dayOffPass_aDOC (vars : VarMap) (shifts : List Shift) (empId : Nat)
    (dow : List Nat) (day : SDate) (acc : WishSets) (x : String) :
    x ∈ (dayOffPass vars shifts empId dow day acc).allDayOffWishCells
      ↔ x ∈ acc.allDayOffWishCells
        ∨ (x = cellKey empId day.isoDate ∧ wishDayMatches dow day = true) := by
  simp only [dayOffPass]
  split_ifs with h1 h2
  · simp [h1, List.mem_append]
  · simp [h1, List.mem_append]
  · simp only [Bool.not_eq_true] at h1
    simp [h1]

/-- The shift-wish pass never touches the day-off sets. -/
theorem shiftWishPass_fDOC (vars : VarMap) (shifts : List Shift) (empId : Nat)
    (dow : List Nat) (sw : List (Nat × String)) (day : SDate) (acc : WishSets) :
    (shiftWishPass vars shifts empId dow sw day acc).fulfilledDayOffCells
      = acc.fulfilledDayOffCells := by
  simp only [shiftWishPass]
  split_ifs <;> rfl

/-- The shift-wish pass never touches `allDayOffWishCells`. -/
theorem shiftWishPass_aDOC (vars : VarMap) (shifts : List Shift) (empId : Nat)
    (dow : List Nat) (sw : List (Nat × String)) (day : SDate) (acc : WishSets) :
    (shiftWishPass vars shifts empId dow sw day acc).allDayOffWishCells
      = acc.allDayOffWishCells := by
  simp only [shiftWishPass]
  split_ifs <;> rfl

/-- A cell is added to `fulfilledShiftWishCells` by the shift-wish pass
exactly when some wish matches the day of month, no resolvable matching
wish is assigned, and the day is not also wished off. -/
theorem shiftWishPass_fSWC (vars : VarMap) (shifts : List Shift) (empId : Nat)
    (dow : List Nat) (sw : List (Nat × String)) (day : SDate) (acc : WishSets)
    (x : String) :
    x ∈ (shiftWishPass vars shifts empId dow sw day acc).fulfilledShiftWishCells
      ↔ x ∈ acc.fulfilledShiftWishCells
        ∨ (x = cellKey empId day.isoDate
            ∧ (sw.filter (fun w => w.fst == day.getDate)).length > 0
            ∧ (sw.filter (fun w => w.fst == day.getDate)).any (fun w =>
                match List.find? (fun s => s.abbreviation == w.snd) shifts with
                | none => false
                | some s => isAssigned vars empId day.isoDate s.id) = false
            ∧ wishDayMatches dow day = false) := by
  simp only [shiftWishPass]
  split_ifs with h1 h2 h3 h3
  · simp only [Bool.and_eq_true, Bool.not_eq_true'] at h2
    simp [h1, h2.1, h2.2, List.mem_append]
  · simp only [Bool.and_eq_true, Bool.not_eq_true'] at h2
    simp [h1, h2.1, h2.2, List.mem_append]
  · simp only [Bool.and_eq_true, Bool.not_eq_true', not_and_or,
      Bool.not_eq_false] at h2
    rcases h2 with h2 | h2 <;> simp [h1, h2]
  · simp only [Bool.and_eq_true, Bool.not_eq_true', not_and_or,
      Bool.not_eq_false] at h2
    rcases h2 with h2 | h2 <;> simp [h1, h2]
  · simp only [Nat.not_lt, Nat.le_zero] at h1
    simp [h1]

/-- A colors entry is added by the shift-wish pass exactly when some wish
matches the day of month and the resolvable wished colors are
non-empty. -/
theorem shiftWishPass_colors (vars : VarMap) (shifts : List Shift) (empId : Nat)
    (dow : List Nat) (sw : List (Nat × String)) (day : SDate) (acc : WishSets)
    (x : String × List String) :
    x ∈ (shiftWishPass vars shifts empId dow sw day acc).allShiftWishColors
      ↔ x ∈ acc.allShiftWishColors
        ∨ (x = (cellKey empId day.isoDate,
              ((sw.filter (fun w => w.fst == day.getDate)).filterMap (fun w =>
                  (List.find? (fun s => s.abbreviation == w.snd) shifts).map
                    Shift.color)).filter (fun c => c != ""))
            ∧ (sw.filter (fun w => w.fst == day.getDate)).length > 0
            ∧ (((sw.filter (fun w => w.fst == day.getDate)).filterMap (fun w =>
                  (List.find? (fun s => s.abbreviation == w.snd) shifts).map
                    Shift.color)).filter (fun c => c != "")).length > 0) := by
  simp only [shiftWishPass]
  split_ifs with h1 h2 h3 h3
  · rw [List.filterMap_map] at h3
    simp only [Function.comp_def, id_eq] at h3
    simp [h1, h3, List.mem_append]
  · rw [Nat.not_lt, Nat.le_zero, List.filterMap_map] at h3
    simp only [Function.comp_def, id_eq] at h3
    simp [h1, h3]
  · rw [List.filterMap_map] at h3
    simp only [Function.comp_def, id_eq] at h3
    simp [h1, h3, List.mem_append]
  · rw [Nat.not_lt, Nat.le_zero, List.filterMap_map] at h3
    simp only [Function.comp_def, id_eq] at h3
    simp [h1, h3]
  · simp only [Nat.not_lt, Nat.le_zero] at h1
    simp [h1]

/-! ### Membership over the whole analysis fold -/

/-- Membership in `fulfilledDayOffCells` after a combined cell step. -/
theorem analyzeCell_fDOC (vars : VarMap) (shifts : List Shift) (empId : Nat)
    (dow : List Nat) (sw : List (Nat × String)) (day : SDate) (acc : WishSets)
    (x : String) :
    x ∈ (analyzeCell vars shifts empId dow sw day acc).fulfilledDayOffCells
      ↔ x ∈ acc.fulfilledDayOffCells
        ∨ (x = cellKey empId day.isoDate
            ∧ wishDayMatches dow day = true
            ∧ shifts.any (fun s => isAssigned vars empId day.isoDate s.id) = false) := by
  rw [analyzeCell, shiftWishPass_fDOC, dayOffPass_fDOC]

/-- Membership in `allDayOffWishCells` after a combined cell step. -/
theorem analyzeCell_aDOC (vars : VarMap) (shifts : List Shift) (empId : Nat)
    (dow : List Nat) (sw : List (Nat × String)) (day : SDate) (acc : WishSets)
    (x : String) :
    x ∈ (analyzeCell vars shifts empId dow sw day acc).allDayOffWishCells
      ↔ x ∈ acc.allDayOffWishCells
        ∨ (x = cellKey empId day.isoDate ∧ wishDayMatches dow day = true) := by
  rw [analyzeCell, shiftWishPass_aDOC, dayOffPass_aDOC]

/-- Membership in `fulfilledShiftWishCells` after a combined cell step. -/
theorem analyzeCell_fSWC (vars : VarMap) (shifts : List Shift) (empId : Nat)
    (dow : List Nat) (sw : List (Nat × String)) (day : SDate) (acc : WishSets)
    (x : String) :
    x ∈ (analyzeCell vars shifts empId dow sw day acc).fulfilledShiftWishCells
      ↔ x ∈ acc.fulfilledShiftWishCells
        ∨ (x = cellKey empId day.isoDate
            ∧ (sw.filter (fun w => w.fst == day.getDate)).length > 0
            ∧ (sw.filter (fun w => w.fst == day.getDate)).any (fun w =>
                match List.find? (fun s => s.abbreviation == w.snd) shifts with
                | none => false
                | some s => isAssigned vars empId day.isoDate s.id) = false
            ∧ wishDayMatches dow day = false) := by
  rw [analyzeCell, shiftWishPass_fSWC, dayOffPass_fSWC]

/-- Membership in `allShiftWishColors` after a combined cell step. -/
theorem analyzeCell_colors (vars : VarMap) (shifts : List Shift) (empId : Nat)
    (dow : List Nat) (sw : List (Nat × String)) (day : SDate) (acc : WishSets)
    (x : String × List String) :
    x ∈ (analyzeCell vars shifts empId dow sw day acc).allShiftWishColors
      ↔ x ∈ acc.allShiftWishColors
        ∨ (x = (cellKey empId day.isoDate,
              ((sw.filter (fun w => w.fst == day.getDate)).filterMap (fun w =>
                  (List.find? (fun s => s.abbreviation == w.snd) shifts).map
                    Shift.color)).filter (fun c => c != ""))
            ∧ (sw.filter (fun w => w.fst == day.getDate)).length > 0
            ∧ (((sw.filter (fun w => w.fst == day.getDate)).filterMap (fun w =>
                  (List.find? (fun s => s.abbreviation == w.snd) shifts).map
                    Shift.color)).filter (fun c => c != "")).length > 0) := by
  rw [analyzeCell, shiftWishPass_colors, dayOffPass_colors]

/-- Membership in `fulfilledDayOffCells` after folding one employee over
all days. -/
theorem daysFold_fDOC (vars : VarMap) (shifts : List Shift) (empId : Nat)
    (dow : List Nat) (sw : List (Nat × String)) (days : List SDate)
    (acc : WishSets) (x : String) :
    x ∈ (days.foldl (fun a d => analyzeCell vars shifts empId dow sw d a)
        acc).fulfilledDayOffCells
      ↔ x ∈ acc.fulfilledDayOffCells
        ∨ ∃ d ∈ days, x = cellKey empId d.isoDate
            ∧ wishDayMatches dow d = true
            ∧ shifts.any (fun s => isAssigned vars empId d.isoDate s.id) = false := by
  induction days generalizing acc with
  | nil => simp
  | cons d t ih =>
    rw [List.foldl_cons, ih, analyzeCell_fDOC, List.exists_mem_cons_iff]
    tauto

/-- Membership in `allDayOffWishCells` after folding one employee over
all days. -/
theorem daysFold_aDOC (vars : VarMap) (shifts : List Shift) (empId : Nat)
    (dow : List Nat) (sw : List (Nat × String)) (days : List SDate)
    (acc : WishSets) (x : String) :
    x ∈ (days.foldl (fun a d => analyzeCell vars shifts empId dow sw d a)
        acc).allDayOffWishCells
      ↔ x ∈ acc.allDayOffWishCells
        ∨ ∃ d ∈ days, x = cellKey empId d.isoDate ∧ wishDayMatches dow d = true := by
  induction days generalizing acc with
  | nil => simp
  | cons d t ih =>
    rw [List.foldl_cons, ih, analyzeCell_aDOC, List.exists_mem_cons_iff]
    tauto

/-- Membership in `fulfilledShiftWishCells` after folding one employee
over all days. -/
theorem daysFold_fSWC (vars : VarMap) (shifts : List Shift) (empId : Nat)
    (dow : List Nat) (sw : List (Nat × String)) (days : List SDate)
    (acc : WishSets) (x : String) :
    x ∈ (days.foldl (fun a d => analyzeCell vars shifts empId dow sw d a)
        acc).fulfilledShiftWishCells
      ↔ x ∈ acc.fulfilledShiftWishCells
        ∨ ∃ d ∈ days, x = cellKey empId d.isoDate
            ∧ (sw.filter (fun w => w.fst == d.getDate)).length > 0
            ∧ (sw.filter (fun w => w.fst == d.getDate)).any (fun w =>
                match List.find? (fun s => s.abbreviation == w.snd) shifts with
                | none => false
                | some s => isAssigned vars empId d.isoDate s.id) = false
            ∧ wishDayMatches dow d = false := by
  induction days generalizing acc with
  | nil => simp
  | cons d t ih =>
    rw [List.foldl_cons, ih, analyzeCell_fSWC, List.exists_mem_cons_iff]
    tauto

/-- Membership in `allShiftWishColors` after folding one employee over
all days. -/
theorem daysFold_colors (vars : VarMap) (shifts : List Shift) (empId : Nat)
    (dow : List Nat) (sw : List (Nat × String)) (days : List SDate)
    (acc : WishSets) (x : String × List String) :
    x ∈ (days.foldl (fun a d => analyzeCell vars shifts empId dow sw d a)
        acc).allShiftWishColors
      ↔ x ∈ acc.allShiftWishColors
        ∨ ∃ d ∈ days, x = (cellKey empId d.isoDate,
              ((sw.filter (fun w => w.fst == d.getDate)).filterMap (fun w =>
                  (List.find? (fun s => s.abbreviation == w.snd) shifts).map
                    Shift.color)).filter (fun c => c != ""))
            ∧ (sw.filter (fun w => w.fst == d.getDate)).length > 0
            ∧ (((sw.filter (fun w => w.fst == d.getDate)).filterMap (fun w =>
                  (List.find? (fun s => s.abbreviation == w.snd) shifts).map
                    Shift.color)).filter (fun c => c != "")).length > 0 := by
  induction days generalizing acc with
  | nil => simp
  | cons d t ih =>
    rw [List.foldl_cons, ih, analyzeCell_colors, List.exists_mem_cons_iff]
    tauto

/-- Membership in `fulfilledDayOffCells` after folding all employees. -/
theorem empsFold_fDOC (vars : VarMap) (shifts : List Shift)
    (employees : List ScheduleEmployee) (days : List SDate) (acc : WishSets)
    (x : String) :
    x ∈ (employees.foldl (fun acc e =>
          days.foldl (fun a d => analyzeCell vars shifts e.id (dowOf e) (swOf e) d a) acc)
        acc).fulfilledDayOffCells
      ↔ x ∈ acc.fulfilledDayOffCells
        ∨ ∃ e ∈ employees, ∃ d ∈ days, x = cellKey e.id d.isoDate
            ∧ wishDayMatches (dowOf e) d = true
            ∧ shifts.any (fun s => isAssigned vars e.id d.isoDate s.id) = false := by
  induction employees generalizing acc with
  | nil => simp
  | cons e t ih =>
    rw [List.foldl_cons, ih, daysFold_fDOC, List.exists_mem_cons_iff]
    exact or_assoc

/-- Membership in `allDayOffWishCells` after folding all employees. -/
theorem empsFold_aDOC (vars : VarMap) (shifts : List Shift)
    (employees : List ScheduleEmployee) (days : List SDate) (acc : WishSets)
    (x : String) :
    x ∈ (employees.foldl (fun acc e =>
          days.foldl (fun a d => analyzeCell vars shifts e.id (dowOf e) (swOf e) d a) acc)
        acc).allDayOffWishCells
      ↔ x ∈ acc.allDayOffWishCells
        ∨ ∃ e ∈ employees, ∃ d ∈ days, x = cellKey e.id d.isoDate
            ∧ wishDayMatches (dowOf e) d = true := by
  induction employees generalizing acc with
  | nil => simp
  | cons e t ih =>
    rw [List.foldl_cons, ih, daysFold_aDOC, List.exists_mem_cons_iff]
    exact or_assoc

/-- Membership in `fulfilledShiftWishCells` after folding all employees. -/
theorem empsFold_fSWC (vars : VarMap) (shifts : List Shift)
    (employees : List ScheduleEmployee) (days : List SDate) (acc : WishSets)
    (x : String) :
    x ∈ (employees.foldl (fun acc e =>
          days.foldl (fun a d => analyzeCell vars shifts e.id (dowOf e) (swOf e) d a) acc)
        acc).fulfilledShiftWishCells
      ↔ x ∈ acc.fulfilledShiftWishCells
        ∨ ∃ e ∈ employees, ∃ d ∈ days, x = cellKey e.id d.isoDate
            ∧ ((swOf e).filter (fun w => w.fst == d.getDate)).length > 0
            ∧ ((swOf e).filter (fun w => w.fst == d.getDate)).any (fun w =>
                match List.find? (fun s => s.abbreviation == w.snd) shifts with
                | none => false
                | some s => isAssigned vars e.id d.isoDate s.id) = false
            ∧ wishDayMatches (dowOf e) d = false := by
  induction employees generalizing acc with
  | nil => simp
  | cons e t ih =>
    rw [List.foldl_cons, ih, daysFold_fSWC, List.exists_mem_cons_iff]
    exact or_assoc

/-- Membership in `allShiftWishColors` after folding all employees. -/
theorem empsFold_colors (vars : VarMap) (shifts : List Shift)
    (employees : List ScheduleEmployee) (days : List SDate) (acc : WishSets)
    (x : String × List String) :
    x ∈ (employees.foldl (fun acc e =>
          days.foldl (fun a d => analyzeCell vars shifts e.id (dowOf e) (swOf e) d a) acc)
        acc).allShiftWishColors
      ↔ x ∈ acc.allShiftWishColors
        ∨ ∃ e ∈ employees, ∃ d ∈ days, x = (cellKey e.id d.isoDate,
              (((swOf e).filter (fun w => w.fst == d.getDate)).filterMap (fun w =>
                  (List.find? (fun s => s.abbreviation == w.snd) shifts).map
                    Shift.color)).filter (fun c => c != ""))
            ∧ ((swOf e).filter (fun w => w.fst == d.getDate)).length > 0
            ∧ ((((swOf e).filter (fun w => w.fst == d.getDate)).filterMap (fun w =>
                  (List.find? (fun s => s.abbreviation == w.snd) shifts).map
                    Shift.color)).filter (fun c => c != "")).length > 0 := by
  induction employees generalizing acc with
  | nil => simp
  | cons e t ih =>
    rw [List.foldl_cons, ih, daysFold_colors, List.exists_mem_cons_iff]
    exact or_assoc

/-! ### Success and failure of the monadic analysis -/

/-- With complete wish data the per-cell step succeeds and is the pure
cell analysis. -/
theorem analyzeEmployeeDay_ok (vars : VarMap) (shifts : List Shift)
    (e : ScheduleEmployee) (day : SDate) (acc : WishSets)
    (h : wishesComplete e = true) :
    analyzeEmployeeDay vars shifts e day acc
      = .ok (analyzeCell vars shifts e.id (dowOf e) (swOf e) day acc) := by
  unfold analyzeEmployeeDay dowOf swOf
  unfold wishesComplete at h
  match hw : e.wishes with
  | none => rw [hw] at h; exact absurd h (by simp)
  | some ⟨none, _⟩ => rw [hw] at h; simp at h
  | some ⟨some _, none⟩ => rw [hw] at h; simp at h
  | some ⟨some _, some _⟩ => rfl

/-- With incomplete wish data the per-cell step raises. -/
theorem analyzeEmployeeDay_err (vars : VarMap) (shifts : List Shift)
    (e : ScheduleEmployee) (day : SDate) (acc : WishSets)
    (h : wishesComplete e = false) :
    analyzeEmployeeDay vars shifts e day acc = .error "TypeError" := by
  unfold analyzeEmployeeDay
  unfold wishesComplete at h
  match hw : e.wishes with
  | none => rfl
  | some ⟨none, none⟩ => rfl
  | some ⟨none, some _⟩ => rfl
  | some ⟨some _, none⟩ => rfl
  | some ⟨some _, some _⟩ => rw [hw] at h; simp at h

/-- Folding one complete employee over the days succeeds with the pure
fold. -/
theorem daysFoldM_ok (vars : VarMap) (shifts : List Shift)
    (e : ScheduleEmployee) (days : List SDate) (acc : WishSets)
    (h : wishesComplete e = true) :
    days.foldlM (fun a d => analyzeEmployeeDay vars shifts e d a) acc
      = .ok (days.foldl
          (fun a d => analyzeCell vars shifts e.id (dowOf e) (swOf e) d a) acc) := by
  induction days generalizing acc with
  | nil => rfl
  | cons d t ih =>
    rw [List.foldlM_cons, analyzeEmployeeDay_ok vars shifts e d acc h]
    show t.foldlM _ _ = _
    rw [ih, List.foldl_cons]

/-- Folding an incomplete employee over a non-empty days list raises. -/
theorem daysFoldM_err (vars : VarMap) (shifts : List Shift)
    (e : ScheduleEmployee) (days : List SDate) (acc : WishSets)
    (hd : days ≠ []) (h : wishesComplete e = false) :
    days.foldlM (fun a d => analyzeEmployeeDay vars shifts e d a) acc
      = .error "TypeError" := by
  match days with
  | [] => exact absurd rfl hd
  | d :: t =>
    rw [List.foldlM_cons, analyzeEmployeeDay_err vars shifts e d acc h]
    rfl

/-- The full analysis succeeds on complete employees and equals the pure
double fold. -/
theorem empsFoldM_ok (vars : VarMap) (shifts : List Shift)
    (employees : List ScheduleEmployee) (days : List SDate) (acc : WishSets)
    (h : ∀ e ∈ employees, wishesComplete e = true) :
    employees.foldlM (fun acc e =>
        days.foldlM (fun a d => analyzeEmployeeDay vars shifts e d a) acc) acc
      = .ok (employees.foldl (fun acc e =>
          days.foldl (fun a d => analyzeCell vars shifts e.id (dowOf e) (swOf e) d a) acc)
        acc) := by
  induction employees generalizing acc with
  | nil => rfl
  | cons e t ih =>
    rw [List.foldlM_cons, daysFoldM_ok vars shifts e days acc (h e (by simp))]
    show t.foldlM _ _ = _
    rw [ih _ (fun e' he' => h e' (by simp [he'])), List.foldl_cons]

/-- With empty days the inner loop never runs, so the full analysis
succeeds whatever the employees' wish data. -/
theorem empsFoldM_days_nil (vars : VarMap) (shifts : List Shift)
    (employees : List ScheduleEmployee) (acc : WishSets) :
    employees.foldlM (fun acc e =>
        ([] : List SDate).foldlM (fun a d => analyzeEmployeeDay vars shifts e d a) acc) acc
      = .ok acc := by
  induction employees generalizing acc with
  | nil => rfl
  | cons e t ih => rw [List.foldlM_cons]; exact ih acc

/-- The pure double fold with empty days is the identity. -/
theorem empsFold_days_nil (vars : VarMap) (shifts : List Shift)
    (employees : List ScheduleEmployee) (acc : WishSets) :
    employees.foldl (fun acc e =>
        ([] : List SDate).foldl
          (fun a d => analyzeCell vars shifts e.id (dowOf e) (swOf e) d a) acc) acc
      = acc := by
  induction employees generalizing acc with
  | nil => rfl
  | cons e t ih => rw [List.foldl_cons]; exact ih acc

/-- With a non-empty days list, one incomplete employee makes the full
analysis raise. -/
theorem empsFoldM_err (vars : VarMap) (shifts : List Shift)
    (employees : List ScheduleEmployee) (days : List SDate) (acc : WishSets)
    (hd : days ≠ []) (h : ∃ e ∈ employees, wishesComplete e = false) :
    employees.foldlM (fun acc e =>
        days.foldlM (fun a d => analyzeEmployeeDay vars shifts e d a) acc) acc
      = .error "TypeError" := by
  induction employees generalizing acc with
  | nil => obtain ⟨e, he, _⟩ := h; exact absurd he (by simp)
  | cons e t ih =>
    cases hc : wishesComplete e with
    | true =>
      rw [List.foldlM_cons, daysFoldM_ok vars shifts e days acc hc]
      show t.foldlM _ _ = _
      refine ih _ ?_
      obtain ⟨e', he', hbad⟩ := h
      rcases List.mem_cons.mp he' with rfl | hmem
      · rw [hc] at hbad; exact absurd hbad (by simp)
      · exact ⟨e', hmem, hbad⟩
    | false =>
      rw [List.foldlM_cons, daysFoldM_err vars shifts e days acc hd hc]
      rfl

/-- A successful analysis is the pure double fold. -/
theorem analyzeAll_ok_elim (vars : VarMap) (shifts : List Shift)
    (employees : List ScheduleEmployee) (days : List SDate) (sets : WishSets)
    (h : analyzeAll vars shifts employees days = .ok sets) :
    sets = employees.foldl (fun acc e =>
        days.foldl (fun a d => analyzeCell vars shifts e.id (dowOf e) (swOf e) d a) acc)
      emptyWishSets := by
  by_cases hd : days = []
  · subst hd
    rw [analyzeAll, empsFoldM_days_nil] at h
    rw [empsFold_days_nil]
    injection h with h
    exact h.symm
  · by_cases hc : ∀ e ∈ employees, wishesComplete e = true
    · rw [analyzeAll, empsFoldM_ok vars shifts employees days emptyWishSets hc] at h
      injection h with h
      exact h.symm
    · push_neg at hc
      obtain ⟨e, he, hbad⟩ := hc
      rw [analyzeAll, empsFoldM_err vars shifts employees days emptyWishSets hd
        ⟨e, he, by simpa using hbad⟩] at h
      exact absurd h (by simp)

/-- The analysis succeeds exactly when the days list is empty or every
employee's wish sub-arrays are present. -/
theorem analyzeAll_isOk_iff (vars : VarMap) (shifts : List Shift)
    (employees : List ScheduleEmployee) (days : List SDate) :
    (analyzeAll vars shifts employees days).isOk = true
      ↔ (days = [] ∨ ∀ e ∈ employees, wishesComplete e = true) := by
  constructor
  · intro h
    by_cases hd : days = []
    · exact Or.inl hd
    · by_cases hc : ∀ e ∈ employees, wishesComplete e = true
      · exact Or.inr hc
      · push_neg at hc
        obtain ⟨e, he, hbad⟩ := hc
        rw [analyzeAll, empsFoldM_err vars shifts employees days emptyWishSets hd
          ⟨e, he, by simpa using hbad⟩] at h
        exact absurd h (by simp [Except.isOk, Except.toBool])
  · intro h
    rcases h with rfl | hc
    · rw [analyzeAll, empsFoldM_days_nil]; rfl
    · rw [analyzeAll, empsFoldM_ok vars shifts employees days emptyWishSets hc]; rfl

/-! ### Injectivity of the cell key -/

/-- Digit characters determine the digit. -/
theorem digitChar_inj : ∀ a, a < 10 → ∀ b, b < 10 → digitChar a = digitChar b → a = b := by
  decide

/-- The ISO date string has ten characters. -/
theorem isoDate_data_length (d : SDate) : d.isoDate.data.length = 10 := rfl

/-- Within the representable ranges, the ISO date string determines the
date. -/
theorem isoDate_inj {d1 d2 : SDate}
    (h1 : d1.year < 10000 ∧ d1.month < 100 ∧ d1.day < 100)
    (h2 : d2.year < 10000 ∧ d2.month < 100 ∧ d2.day < 100)
    (h : d1.isoDate = d2.isoDate) : d1 = d2 := by
  obtain ⟨y1, mo1, a1⟩ := d1
  obtain ⟨y2, mo2, a2⟩ := d2
  dsimp only at h h1 h2
  obtain ⟨h1y, h1m, h1d⟩ := h1
  obtain ⟨h2y, h2m, h2d⟩ := h2
  rw [SDate.isoDate, SDate.isoDate] at h
  dsimp only at h
  injection h with hd
  simp only [List.cons.injEq, and_true] at hd
  obtain ⟨e1, e2, e3, e4, _, e5, e6, _, e7, e8⟩ := hd
  have ten : (0 : Nat) < 10 := by norm_num
  have g1 := digitChar_inj _ (Nat.mod_lt _ ten) _ (Nat.mod_lt _ ten) e1
  have g2 := digitChar_inj _ (Nat.mod_lt _ ten) _ (Nat.mod_lt _ ten) e2
  have g3 := digitChar_inj _ (Nat.mod_lt _ ten) _ (Nat.mod_lt _ ten) e3
  have g4 := digitChar_inj _ (Nat.mod_lt _ ten) _ (Nat.mod_lt _ ten) e4
  have g5 := digitChar_inj _ (Nat.mod_lt _ ten) _ (Nat.mod_lt _ ten) e5
  have g6 := digitChar_inj _ (Nat.mod_lt _ ten) _ (Nat.mod_lt _ ten) e6
  have g7 := digitChar_inj _ (Nat.mod_lt _ ten) _ (Nat.mod_lt _ ten) e7
  have g8 := digitChar_inj _ (Nat.mod_lt _ ten) _ (Nat.mod_lt _ ten) e8
  simp only [SDate.mk.injEq]
  refine ⟨?_, ?_, ?_⟩ <;> omega

/-- The cell key determines the employee-id string and the date string,
when the date strings have equal length. -/
theorem cellKey_inj {id1 id2 : Nat} {s1 s2 : String}
    (hl : s1.data.length = s2.data.length)
    (h : cellKey id1 s1 = cellKey id2 s2) :
    toString id1 = toString id2 ∧ s1 = s2 := by
  have hd := congrArg String.data h
  rw [cellKey, cellKey, String.data_append, String.data_append,
    String.data_append, String.data_append] at hd
  have houter := List.append_inj' hd hl
  have hinner := List.append_inj' houter.1 rfl
  exact ⟨String.ext hinner.1, String.ext houter.2⟩

/-- `wishDayMatches` is day-of-month membership. -/
theorem wishDayMatches_iff (dow : List Nat) (day : SDate) :
    wishDayMatches dow day = true ↔ day.getDate ∈ dow := by
  simp [wishDayMatches]

/-- No shift passes `isAssigned` exactly when `getShiftsForCell` returns
the empty list. -/
theorem noShift_iff (empId : Nat) (day : SDate) (shifts : List Shift)
    (vars : VarMap) :
    (shifts.any (fun s => isAssigned vars empId day.isoDate s.id) = false)
      ↔ getShiftsForCell empId day shifts vars = [] := by
  rw [getShiftsForCell, collectAssigned_eq_filter, List.any_eq_false,
    List.filter_eq_nil_iff]

/-- What a successful `parseSolutionFile` run consists of. -/
theorem parseSolutionFile_ok_elim (raw : RawSolution) (sol : ScheduleSolution)
    (h : parseSolutionFile raw = .ok sol) :
    sol.vars = raw.vars.getD []
      ∧ sol.employees = (raw.employees.getD []).map normalizeEmployee
      ∧ sol.shifts = raw.shifts.getD []
      ∧ raw.days = some sol.days
      ∧ sol.stats = raw.stats.getD createEmptyStats
      ∧ analyzeAll sol.vars sol.shifts sol.employees sol.days
        = .ok ⟨sol.fulfilledDayOffCells, sol.fulfilledShiftWishCells,
            sol.allDayOffWishCells, sol.allShiftWishColors⟩ := by
  rw [parseSolutionFile] at h
  cases hds : raw.days with
  | none => rw [hds] at h; exact absurd h (by simp)
  | some ds =>
    rw [hds] at h
    dsimp only at h
    cases hset : analyzeAll (raw.vars.getD []) (raw.shifts.getD [])
        ((raw.employees.getD []).map normalizeEmployee) ds with
    | error msg => rw [hset] at h; exact absurd h (by simp)
    | ok sets =>
      rw [hset] at h
      injection h with h
      subst h
      exact ⟨rfl, rfl, rfl, rfl, rfl, hset⟩

/-- A filter has positive length exactly when some element passes. -/
theorem filter_length_pos_iff {α : Type} (p : α → Bool) (l : List α) :
    (l.filter p).length > 0 ↔ ∃ a ∈ l, p a = true := by
  simp only [gt_iff_lt, List.length_pos, Ne, List.filter_eq_nil_iff]
  push_neg
  simp

/-- `any` over the day's wishes is false exactly when every matching wish
fails the predicate. -/
theorem anyFilter_false_iff (sw : List (Nat × String)) (g : Nat)
    (p : Nat × String → Bool) :
    ((sw.filter (fun w => w.fst == g)).any p = false)
      ↔ ∀ w ∈ sw, w.fst = g → p w = false := by
  rw [List.any_eq_false]
  constructor
  · intro h w hw hfst
    have hmem : w ∈ sw.filter (fun w => w.fst == g) :=
      List.mem_filter.mpr ⟨hw, by simp [hfst]⟩
    simpa using h w hmem
  · intro h w hw
    obtain ⟨hmem, hfst⟩ := List.mem_filter.mp hw
    simp [h w hmem (by simpa using hfst)]

/-- The wished-shift check of one wish entry is false exactly when its
resolved shift, if any, is unassigned. -/
theorem matchFind_false_iff (shifts : List Shift) (vars : VarMap)
    (empId : Nat) (ds : String) (ab : String) :
    ((match List.find? (fun s => s.abbreviation == ab) shifts with
        | none => false
        | some s => isAssigned vars empId ds s.id) = false)
      ↔ ∀ s, List.find? (fun s' => s'.abbreviation == ab) shifts = some s →
          isAssigned vars empId ds s.id = false := by
  cases hf : List.find? (fun s => s.abbreviation == ab) shifts with
  | none => simp
  | some s0 => simp

/-! ### Claim theorems: day-off wish cells (C1) -/

/-- **C1.** In a decoded solution whose employees have pairwise distinct
ids and whose days lie in the representable calendar range, the cell of
employee `e` and schedule day `d` is in `fulfilledDayOffCells` exactly
when `d`'s day of month is wished off by `e` and `assignedShifts(e, d)`
is empty; in particular a cell is never in `fulfilledDayOffCells` while
some shift is assigned there. -/
theorem c1_fulfilledDayOff_iff (raw : RawSolution) (sol : ScheduleSolution)
    (e : ScheduleEmployee) (d : SDate)
    (hdec : parseSolutionFile raw = .ok sol)
    (hnd : (sol.employees.map (fun x => toString x.id)).Nodup)
    (hdates : ∀ d' ∈ sol.days, d'.year < 10000 ∧ d'.month < 100 ∧ d'.day < 100)
    (he : e ∈ sol.employees) (hd : d ∈ sol.days) :
    cellKey e.id d.isoDate ∈ sol.fulfilledDayOffCells
      ↔ (d.getDate ∈ dowOf e
          ∧ getShiftsForCell e.id d sol.shifts sol.vars = []) := by
  obtain ⟨-, -, -, -, -, hset⟩ := parseSolutionFile_ok_elim raw sol hdec
  have hpure := analyzeAll_ok_elim _ _ _ _ _ hset
  have hproj : sol.fulfilledDayOffCells
      = (sol.employees.foldl (fun acc e' =>
          sol.days.foldl (fun a d' =>
            analyzeCell sol.vars sol.shifts e'.id (dowOf e') (swOf e') d' a) acc)
        emptyWishSets).fulfilledDayOffCells :=
    congrArg WishSets.fulfilledDayOffCells hpure
  rw [hproj, empsFold_fDOC]
  constructor
  · rintro (hfalse | ⟨e', he', d', hd', hkey, hwish, hassign⟩)
    · exact absurd hfalse (by simp [emptyWishSets])
    · have hinj := cellKey_inj (by rw [isoDate_data_length, isoDate_data_length]) hkey
      have hee : e = e' := List.inj_on_of_nodup_map hnd he he' hinj.1
      have hdd : d = d' := isoDate_inj (hdates d hd) (hdates d' hd') hinj.2
      rw [← hee, ← hdd] at hwish hassign
      exact ⟨(wishDayMatches_iff _ _).mp hwish, (noShift_iff _ _ _ _).mp hassign⟩
  · rintro ⟨hw, hns⟩
    exact Or.inr ⟨e, he, d, hd, rfl, (wishDayMatches_iff _ _).mpr hw,
      (noShift_iff _ _ _ _).mpr hns⟩

/-- Witness for C1 on the concrete assignment-free schedule: employee 5
wished day 10 off, nothing is assigned, and the cell is fulfilled. -/
theorem c1_fulfilledDayOff_iff_witness :
    cellKey exEmp5.id exDay1.isoDate ∈ exSolFree.fulfilledDayOffCells
      ↔ (exDay1.getDate ∈ dowOf exEmp5
          ∧ getShiftsForCell exEmp5.id exDay1 exSolFree.shifts exSolFree.vars = []) :=
  c1_fulfilledDayOff_iff exRawFree exSolFree exEmp5 exDay1 rfl
    (by decide) (by decide) (by decide) (by decide)

/-! ### Claim theorems: shift wish cells (C3) -/

/-- **C3.** In a decoded solution with distinct employee ids and
representable days, the cell of employee `e` and day `d` is in
`fulfilledShiftWishCells` exactly when `e` has a shift wish for `d`'s day
of month, none of the wished shifts that resolve by abbreviation in the
catalog is assigned there, and the day is not also a day-off wish; and
every colors entry recorded for the cell lists exactly the colors of the
resolvable wished shifts (unresolved abbreviations are dropped). -/
theorem c3_fulfilledShiftWish_iff (raw : RawSolution) (sol : ScheduleSolution)
    (e : ScheduleEmployee) (d : SDate)
    (hdec : parseSolutionFile raw = .ok sol)
    (hnd : (sol.employees.map (fun x => toString x.id)).Nodup)
    (hdates : ∀ d' ∈ sol.days, d'.year < 10000 ∧ d'.month < 100 ∧ d'.day < 100)
    (he : e ∈ sol.employees) (hd : d ∈ sol.days) :
    (cellKey e.id d.isoDate ∈ sol.fulfilledShiftWishCells
      ↔ ((∃ w ∈ swOf e, w.fst = d.getDate)
          ∧ (∀ w ∈ swOf e, w.fst = d.getDate →
              ∀ s, List.find? (fun s' => s'.abbreviation == w.snd) sol.shifts = some s →
                isAssigned sol.vars e.id d.isoDate s.id = false)
          ∧ d.getDate ∉ dowOf e))
    ∧ (∀ cs, (cellKey e.id d.isoDate, cs) ∈ sol.allShiftWishColors →
        cs = (((swOf e).filter (fun w => w.fst == d.getDate)).filterMap (fun w =>
            (List.find? (fun s => s.abbreviation == w.snd) sol.shifts).map
              Shift.color)).filter (fun c => c != "")) := by
  obtain ⟨-, -, -, -, -, hset⟩ := parseSolutionFile_ok_elim raw sol hdec
  have hpure := analyzeAll_ok_elim _ _ _ _ _ hset
  constructor
  · have hproj : sol.fulfilledShiftWishCells
        = (sol.employees.foldl (fun acc e' =>
            sol.days.foldl (fun a d' =>
              analyzeCell sol.vars sol.shifts e'.id (dowOf e') (swOf e') d' a) acc)
          emptyWishSets).fulfilledShiftWishCells :=
      congrArg WishSets.fulfilledShiftWishCells hpure
    rw [hproj, empsFold_fSWC]
    constructor
    · rintro (hfalse | ⟨e', he', d', hd', hkey, hlen, hany, hdow⟩)
      · exact absurd hfalse (by simp [emptyWishSets])
      · have hinj := cellKey_inj (by rw [isoDate_data_length, isoDate_data_length]) hkey
        have hee : e = e' := List.inj_on_of_nodup_map hnd he he' hinj.1
        have hdd : d = d' := isoDate_inj (hdates d hd) (hdates d' hd') hinj.2
        rw [← hee, ← hdd] at hlen hany hdow
        refine ⟨?_, ?_, ?_⟩
        · obtain ⟨w, hw, hfst⟩ := (filter_length_pos_iff _ _).mp hlen
          exact ⟨w, hw, by simpa using hfst⟩
        · intro w hw hfst s hfind
          have := (anyFilter_false_iff _ _ _).mp hany w hw hfst
          exact (matchFind_false_iff sol.shifts sol.vars e.id d.isoDate w.snd).mp
            this s hfind
        · simpa [wishDayMatches] using hdow
    · rintro ⟨⟨w0, hw0, hfst0⟩, hnone, hdow⟩
      refine Or.inr ⟨e, he, d, hd, rfl, ?_, ?_, ?_⟩
      · exact (filter_length_pos_iff _ _).mpr ⟨w0, hw0, by simp [hfst0]⟩
      · refine (anyFilter_false_iff _ _ _).mpr (fun w hw hfst => ?_)
        exact (matchFind_false_iff sol.shifts sol.vars e.id d.isoDate w.snd).mpr
          (hnone w hw hfst)
      · simpa [wishDayMatches] using hdow
  · intro cs hcs
    have hproj : sol.allShiftWishColors
        = (sol.employees.foldl (fun acc e' =>
            sol.days.foldl (fun a d' =>
              analyzeCell sol.vars sol.shifts e'.id (dowOf e') (swOf e') d' a) acc)
          emptyWishSets).allShiftWishColors :=
      congrArg WishSets.allShiftWishColors hpure
    rw [hproj, empsFold_colors] at hcs
    rcases hcs with hfalse | ⟨e', he', d', hd', hpair, -, -⟩
    · exact absurd hfalse (by simp [emptyWishSets])
    · rw [Prod.mk.injEq] at hpair
      have hinj := cellKey_inj (by rw [isoDate_data_length, isoDate_data_length]) hpair.1
      have hee : e = e' := List.inj_on_of_nodup_map hnd he he' hinj.1
      have hdd : d = d' := isoDate_inj (hdates d hd) (hdates d' hd') hinj.2
      rw [← hee, ← hdd] at hpair
      exact hpair.2

/-- Witness for C3 on the concrete assignment-free schedule: the shift
wish on day 10 is not fulfilled because the day is also a day-off
wish, and its color annotation lists shift `F`'s color. -/
theorem c3_fulfilledShiftWish_iff_witness :
    (cellKey exEmp5.id exDay1.isoDate ∈ exSolFree.fulfilledShiftWishCells
      ↔ ((∃ w ∈ swOf exEmp5, w.fst = exDay1.getDate)
          ∧ (∀ w ∈ swOf exEmp5, w.fst = exDay1.getDate →
              ∀ s, List.find? (fun s' => s'.abbreviation == w.snd) exSolFree.shifts = some s →
                isAssigned exSolFree.vars exEmp5.id exDay1.isoDate s.id = false)
          ∧ exDay1.getDate ∉ dowOf exEmp5))
    ∧ (∀ cs, (cellKey exEmp5.id exDay1.isoDate, cs) ∈ exSolFree.allShiftWishColors →
        cs = (((swOf exEmp5).filter (fun w => w.fst == exDay1.getDate)).filterMap (fun w =>
            (List.find? (fun s => s.abbreviation == w.snd) exSolFree.shifts).map
              Shift.color)).filter (fun c => c != "")) :=
  c3_fulfilledShiftWish_iff exRawFree exSolFree exEmp5 exDay1 rfl
    (by decide) (by decide) (by decide) (by decide)

/-! ### Claim theorems: containment of the day-off wish sets (C8) -/

/-- In every decoded solution, every fulfilled day-off cell is an
all-day-off-wish cell: the parser adds to `fulfilledDayOffCells` only
directly after adding the same key to `allDayOffWishCells`. -/
theorem fulfilled_subset_all (raw : RawSolution) (sol : ScheduleSolution)
    (h : parseSolutionFile raw = .ok sol) :
    ∀ ck ∈ sol.fulfilledDayOffCells, ck ∈ sol.allDayOffWishCells := by
  intro ck hck
  obtain ⟨-, -, -, -, -, hset⟩ := parseSolutionFile_ok_elim raw sol h
  have hpure := analyzeAll_ok_elim _ _ _ _ _ hset
  have hproj1 : sol.fulfilledDayOffCells
      = (sol.employees.foldl (fun acc e' =>
          sol.days.foldl (fun a d' =>
            analyzeCell sol.vars sol.shifts e'.id (dowOf e') (swOf e') d' a) acc)
        emptyWishSets).fulfilledDayOffCells :=
    congrArg WishSets.fulfilledDayOffCells hpure
  have hproj2 : sol.allDayOffWishCells
      = (sol.employees.foldl (fun acc e' =>
          sol.days.foldl (fun a d' =>
            analyzeCell sol.vars sol.shifts e'.id (dowOf e') (swOf e') d' a) acc)
        emptyWishSets).allDayOffWishCells :=
    congrArg WishSets.allDayOffWishCells hpure
  rw [hproj1, empsFold_fDOC] at hck
  rw [hproj2, empsFold_aDOC]
  rcases hck with hfalse | ⟨e', he', d', hd', hkey, hwish, -⟩
  · exact absurd hfalse (by simp [emptyWishSets])
  · exact Or.inr ⟨e', he', d', hd', hkey, hwish⟩

/-- **C8, counterexample.** The claim's second half fails: the containment
`fulfilledDayOffCells ⊆ allDayOffWishCells` *is* guaranteed by the
parser, so the claim as stated is false. -/
theorem c8_counterexample : ¬ c8ClaimStatement := fun hclaim =>
  hclaim.2 (fun raw sol ck hdec hf => fulfilled_subset_all raw sol hdec ck hf)

/-- **C8, amended.** Membership in `allDayOffWishCells` does not imply
membership in `fulfilledDayOffCells` (witnessed by an assigned wished-off
day), while the converse containment always holds: every fulfilled
day-off cell is an all-day-off-wish cell. -/
theorem c8_wish_cells_amended :
    (∃ (raw : RawSolution) (sol : ScheduleSolution) (ck : String),
        parseSolutionFile raw = .ok sol
          ∧ ck ∈ sol.allDayOffWishCells ∧ ck ∉ sol.fulfilledDayOffCells)
      ∧ ∀ (raw : RawSolution) (sol : ScheduleSolution) (ck : String),
          parseSolutionFile raw = .ok sol →
          ck ∈ sol.fulfilledDayOffCells → ck ∈ sol.allDayOffWishCells :=
  ⟨⟨exRaw, exSolVal, cellKey 5 exDay1.isoDate, rfl, by simp [exSolVal], by
      simp [exSolVal]⟩,
    fun raw sol ck hdec hf => fulfilled_subset_all raw sol hdec ck hf⟩

/-- Witness for the amended C8: in the assignment-free schedule the
fulfilled cell of employee 5 on day 10 is also an all-wish cell. -/
theorem c8_wish_cells_amended_witness :
    cellKey 5 exDay1.isoDate ∈ exSolFree.allDayOffWishCells :=
  (c8_wish_cells_amended).2 exRawFree exSolFree (cellKey 5 exDay1.isoDate) rfl
    (by simp [exSolFree])

/-! ### Claim theorems: decoder error behaviour (C5) -/

/-- When `days` is present, decoding succeeds exactly when the wish
analysis does. -/
theorem parse_isOk (raw : RawSolution) (ds : List SDate)
    (hds : raw.days = some ds) :
    (parseSolutionFile raw).isOk
      = (analyzeAll (raw.vars.getD []) (raw.shifts.getD [])
          ((raw.employees.getD []).map normalizeEmployee) ds).isOk := by
  rw [parseSolutionFile, hds]
  dsimp only
  cases analyzeAll (raw.vars.getD []) (raw.shifts.getD [])
      ((raw.employees.getD []).map normalizeEmployee) ds <;> rfl

/-- **C5, counterexample.** A raw document with all four top-level fields
present whose single employee lacks the `day_off_wishes` sub-array makes
decoding fail: missing wish sub-arrays are *not* defaulted and raise,
refuting the claim that decoding fails only when one of the four
top-level fields is absent. -/
theorem c5_counterexample :
    exRawBadWishes.vars.isSome = true
      ∧ exRawBadWishes.employees.isSome = true
      ∧ exRawBadWishes.shifts.isSome = true
      ∧ exRawBadWishes.days.isSome = true
      ∧ (decodeSolution exRawBadWishes).isOk = false :=
  ⟨rfl, rfl, rfl, rfl, rfl⟩

/-- **C5, amended.** Decoding fails exactly when one of the four
top-level fields is absent, or the days list is non-empty and some
employee's `wishes` object or its `day_off_wishes` / `shift_wishes`
sub-array is absent.  On success, employees are normalised by defaulting
only the four availability sub-arrays to `[]` (the wish sub-arrays are
passed through untouched) and an absent `stats` object is replaced by the
all-zero stats. -/
theorem c5_decoder_amended (raw : RawSolution) :
    ((decodeSolution raw).isOk = false
      ↔ (raw.vars.isNone = true ∨ raw.employees.isNone = true
          ∨ raw.shifts.isNone = true ∨ raw.days.isNone = true
          ∨ (raw.days.getD [] ≠ []
              ∧ ∃ e ∈ (raw.employees.getD []).map normalizeEmployee,
                  wishesComplete e = false)))
      ∧ (∀ sol, decodeSolution raw = .ok sol →
          sol.vars = raw.vars.getD []
            ∧ sol.employees = (raw.employees.getD []).map normalizeEmployee
            ∧ sol.shifts = raw.shifts.getD []
            ∧ sol.stats = raw.stats.getD createEmptyStats)
      ∧ (∀ e : RawEmployee,
          (normalizeEmployee e).vacation_days = e.vacation_days.getD []
            ∧ (normalizeEmployee e).forbidden_days = e.forbidden_days.getD []
            ∧ (normalizeEmployee e).vacation_shifts = e.vacation_shifts.getD []
            ∧ (normalizeEmployee e).forbidden_shifts = e.forbidden_shifts.getD []
            ∧ (normalizeEmployee e).wishes = e.wishes) := by
  by_cases hbad : (raw.vars.isNone || raw.employees.isNone
      || raw.shifts.isNone || raw.days.isNone) = true
  · have hdec : decodeSolution raw = .error "Invalid solution file format" := by
      rw [decodeSolution, validateSolutionUpload, if_pos hbad]
    refine ⟨?_, ?_, fun e => ⟨rfl, rfl, rfl, rfl, rfl⟩⟩
    · rw [hdec]
      simp only [Bool.or_eq_true] at hbad
      constructor
      · intro _
        tauto
      · intro _
        rfl
    · intro sol hsol
      rw [hdec] at hsol
      exact absurd hsol (by simp)
  · have hval : validateSolutionUpload raw = .ok raw := by
      rw [validateSolutionUpload, if_neg hbad]
    have hdec : decodeSolution raw = parseSolutionFile raw := by
      rw [decodeSolution, hval]
    simp only [Bool.or_eq_true, not_or, Bool.not_eq_true] at hbad
    obtain ⟨⟨⟨hv, he⟩, hs⟩, hd⟩ := hbad
    have hdne : raw.days ≠ none := by
      intro hcon
      rw [hcon] at hd
      exact absurd hd (by simp)
    obtain ⟨ds, hds⟩ := Option.ne_none_iff_exists'.mp hdne
    refine ⟨?_, ?_, fun e => ⟨rfl, rfl, rfl, rfl, rfl⟩⟩
    · rw [hdec]
      have hok := parse_isOk raw ds hds
      constructor
      · intro h
        rw [h] at hok
        have := (analyzeAll_isOk_iff (raw.vars.getD []) (raw.shifts.getD [])
            ((raw.employees.getD []).map normalizeEmployee) ds)
        have hnot : ¬ (ds = [] ∨ ∀ e ∈ (raw.employees.getD []).map normalizeEmployee,
            wishesComplete e = true) := by
          intro hcon
          rw [← this] at hcon
          rw [hcon] at hok
          exact absurd hok (by simp)
        push_neg at hnot
        refine Or.inr (Or.inr (Or.inr (Or.inr ⟨by rw [hds]; exact hnot.1, ?_⟩)))
        obtain ⟨e, hmem, hbad2⟩ := hnot.2
        exact ⟨e, hmem, by simpa using hbad2⟩
      · intro h
        rcases h with h | h | h | h | ⟨hne, e, hmem, hbad2⟩
        · rw [hv] at h; exact absurd h (by simp)
        · rw [he] at h; exact absurd h (by simp)
        · rw [hs] at h; exact absurd h (by simp)
        · rw [hd] at h; exact absurd h (by simp)
        · have hnotok : (analyzeAll (raw.vars.getD []) (raw.shifts.getD [])
              ((raw.employees.getD []).map normalizeEmployee) ds).isOk ≠ true := by
            intro hcon
            rw [analyzeAll_isOk_iff] at hcon
            rcases hcon with hnil | hall
            · rw [hds] at hne
              exact hne hnil
            · exact absurd (hall e hmem) (by simp [hbad2])
          rw [hok]
          exact Bool.eq_false_iff.mpr hnotok
    · intro sol hsol
      rw [hdec] at hsol
      obtain ⟨h1, h2, h3, -, h5, -⟩ := parseSolutionFile_ok_elim raw sol hsol
      exact ⟨h1, h2, h3, h5⟩

/-- Witness for the amended C5: decoding the concrete complete document
yields the defaulted fields. -/
theorem c5_decoder_amended_witness :
    exSolVal.vars = exRaw.vars.getD []
      ∧ exSolVal.employees = (exRaw.employees.getD []).map normalizeEmployee
      ∧ exSolVal.shifts = exRaw.shifts.getD []
      ∧ exSolVal.stats = exRaw.stats.getD createEmptyStats :=
  (c5_decoder_amended exRaw).2.1 exSolVal rfl

/-! ### The comparison grouping (C6) -/

/-- The head of a filtered list is its first hit. -/
theorem head?_filter_eq_find? {α : Type} (p : α → Bool) (l : List α) :
    (l.filter p).head? = l.find? p := by
  induction l with
  | nil => rfl
  | cons a t ih =>
    cases hp : p a with
    | true =>
      rw [List.filter_cons, if_pos hp, List.find?_cons_of_pos _ hp]
      rfl
    | false =>
      rw [List.filter_cons, if_neg (by simp [hp]),
        List.find?_cons_of_neg _ (by simp [hp]), ih]

/-- Membership in the first-appearance id list. -/
theorem firstIdsFrom_mem (l : List ScheduleEmployee) :
    ∀ (seen : List Nat) (a : Nat),
    a ∈ firstIdsFrom seen l ↔ a ∉ seen ∧ ∃ e ∈ l, e.id = a := by
  induction l with
  | nil =>
    intro seen a
    simp [firstIdsFrom]
  | cons e t ih =>
    intro seen a
    rw [firstIdsFrom]
    by_cases hc : e.id ∈ seen
    · rw [if_pos hc, ih]
      constructor
      · rintro ⟨hns, e', he', rfl⟩
        exact ⟨hns, e', List.mem_cons_of_mem _ he', rfl⟩
      · rintro ⟨hns, e', he', rfl⟩
        rcases List.mem_cons.mp he' with heq | hm
        · subst heq
          exact absurd hc hns
        · exact ⟨hns, e', hm, rfl⟩
    · rw [if_neg hc, List.mem_cons, ih]
      constructor
      · rintro (rfl | ⟨hns, e', he', rfl⟩)
        · exact ⟨hc, e, List.mem_cons_self _ _, rfl⟩
        · rw [List.mem_append] at hns
          push_neg at hns
          exact ⟨hns.1, e', List.mem_cons_of_mem _ he', rfl⟩
      · rintro ⟨hns, e', he', rfl⟩
        rcases List.mem_cons.mp he' with heq | hm
        · exact Or.inl (by rw [heq])
        · by_cases hae : e'.id = e.id
          · exact Or.inl hae
          · exact Or.inr ⟨by simp [List.mem_append, hns, hae], e', hm, rfl⟩

/-- Membership in `firstIds`. -/
theorem firstIds_mem (l : List ScheduleEmployee) (a : Nat) :
    a ∈ firstIds l ↔ ∃ e ∈ l, e.id = a := by
  rw [firstIds, firstIdsFrom_mem]
  simp

/-- Appending one employee to the pool appends its id exactly when it is
new. -/
theorem firstIdsFrom_append (l : List ScheduleEmployee) (e : ScheduleEmployee) :
    ∀ seen : List Nat,
    firstIdsFrom seen (l ++ [e])
      = firstIdsFrom seen l
        ++ (if e.id ∈ seen ∨ ∃ x ∈ l, x.id = e.id then [] else [e.id]) := by
  induction l with
  | nil =>
    intro seen
    by_cases hc : e.id ∈ seen <;> simp [firstIdsFrom, hc]
  | cons x t ih =>
    intro seen
    rw [List.cons_append, firstIdsFrom, firstIdsFrom]
    by_cases hx : x.id ∈ seen
    · rw [if_pos hx, if_pos hx, ih]
      congr 1
      refine if_congr ⟨?_, ?_⟩ rfl rfl
      · rintro (h | ⟨x', hx', hid⟩)
        · exact Or.inl h
        · exact Or.inr ⟨x', List.mem_cons_of_mem _ hx', hid⟩
      · rintro (h | ⟨x', hx', hid⟩)
        · exact Or.inl h
        · rcases List.mem_cons.mp hx' with heq | hm
          · subst heq
            exact Or.inl (hid ▸ hx)
          · exact Or.inr ⟨x', hm, hid⟩
    · rw [if_neg hx, if_neg hx, ih, List.cons_append]
      congr 2
      refine if_congr ⟨?_, ?_⟩ rfl rfl
      · rintro (h | ⟨x', hx', hid⟩)
        · rw [List.mem_append] at h
          rcases h with h | h
          · exact Or.inl h
          · rw [List.mem_singleton] at h
            exact Or.inr ⟨x, List.mem_cons_self _ _, h.symm⟩
        · exact Or.inr ⟨x', List.mem_cons_of_mem _ hx', hid⟩
      · rintro (h | ⟨x', hx', hid⟩)
        · exact Or.inl (List.mem_append.mpr (Or.inl h))
        · rcases List.mem_cons.mp hx' with heq | hm
          · subst heq
            exact Or.inl (List.mem_append.mpr (Or.inr (by simp [hid])))
          · exact Or.inr ⟨x', hm, hid⟩

/-- `firstIds` over a pool extended by one employee. -/
theorem firstIds_append (l : List ScheduleEmployee) (e : ScheduleEmployee) :
    firstIds (l ++ [e])
      = firstIds l ++ (if ∃ x ∈ l, x.id = e.id then [] else [e.id]) := by
  rw [firstIds, firstIdsFrom_append, firstIds]
  congr 1
  refine if_congr ⟨?_, ?_⟩ rfl rfl
  · rintro (h | h)
    · exact absurd h (by simp)
    · exact h
  · exact Or.inr

/-- The map's key test sees exactly the ids occurring in the pool. -/
theorem mkMapOf_any_key (pool : List ScheduleEmployee) (e : ScheduleEmployee) :
    ((mkMapOf pool).any (fun p => p.fst == e.id) = true)
      ↔ ∃ x ∈ pool, x.id = e.id := by
  rw [mkMapOf, List.any_eq_true]
  constructor
  · rintro ⟨p, hp, hbeq⟩
    obtain ⟨id, hid, rfl⟩ := List.mem_map.mp hp
    have hide : id = e.id := by simpa using hbeq
    subst hide
    exact (firstIds_mem pool _).mp hid
  · rintro ⟨x, hx, hid⟩
    refine ⟨(e.id, pool.filter (fun e' => e'.id == e.id)),
      List.mem_map.mpr ⟨e.id, (firstIds_mem pool e.id).mpr ⟨x, hx, hid⟩, rfl⟩, by simp⟩

/-- One `employeeMap` insertion preserves the closed form. -/
theorem insertEmployee_mkMapOf (pool : List ScheduleEmployee) (e : ScheduleEmployee) :
    insertEmployee (mkMapOf pool) e = mkMapOf (pool ++ [e]) := by
  by_cases hocc : ∃ x ∈ pool, x.id = e.id
  · rw [insertEmployee, if_pos ((mkMapOf_any_key pool e).mpr hocc)]
    rw [mkMapOf, mkMapOf, List.map_map, firstIds_append, if_pos hocc,
      List.append_nil]
    refine List.map_congr_left (fun id _ => ?_)
    simp only [Function.comp_apply]
    by_cases hide : id = e.id
    · subst hide
      rw [if_pos (by simp)]
      simp [List.filter_append]
    · rw [if_neg (by simp [hide])]
      have hne : ¬ e.id = id := fun h => hide h.symm
      simp [List.filter_append, hne]
  · rw [insertEmployee,
      if_neg (fun hany => hocc ((mkMapOf_any_key pool e).mp hany))]
    rw [mkMapOf, mkMapOf, firstIds_append, if_neg hocc, List.map_append]
    congr 1
    · refine List.map_congr_left (fun id hid => ?_)
      have hide : e.id ≠ id := by
        intro hcon
        obtain ⟨x, hx, hxid⟩ := (firstIds_mem pool id).mp hid
        exact hocc ⟨x, hx, by rw [hxid, hcon]⟩
      simp [List.filter_append, hide]
    · have hnil : pool.filter (fun x => x.id == e.id) = [] := by
        rw [List.filter_eq_nil_iff]
        intro x hx
        simp only [beq_iff_eq]
        exact fun hcon => hocc ⟨x, hx, hcon⟩
      simp [List.filter_append, hnil]

/-- Folding employees into a closed-form map extends the pool. -/
theorem foldl_insert_from (l : List ScheduleEmployee) :
    ∀ pool : List ScheduleEmployee,
    l.foldl insertEmployee (mkMapOf pool) = mkMapOf (pool ++ l) := by
  induction l with
  | nil => intro pool; simp
  | cons e t ih =>
    intro pool
    rw [List.foldl_cons, insertEmployee_mkMapOf, ih]
    simp

/-- The `employeeMap` of `groupedEmployees` in closed form. -/
theorem buildEmployeeMap_eq (schedules : List ComparedSchedule) :
    buildEmployeeMap schedules = mkMapOf (flatEmps schedules) := by
  have hflat : ∀ init,
      schedules.foldl (fun m sch => sch.employees.foldl insertEmployee m) init
        = (flatEmps schedules).foldl insertEmployee init := by
    induction schedules with
    | nil => intro init; rfl
    | cons sch t ih =>
      intro init
      rw [List.foldl_cons, flatEmps, List.flatMap_cons, List.foldl_append, ih]
      rfl
  rw [buildEmployeeMap, hflat []]
  have h0 := foldl_insert_from (flatEmps schedules) []
  simpa [mkMapOf, firstIds, firstIdsFrom] using h0

/-- The group-emitting fold of `groupedEmployees` is a `filterMap`. -/
theorem foldl_groups (schedules : List ComparedSchedule) (searchTerm : String)
    (m : List (Nat × List ScheduleEmployee)) (groups0 : List (List GroupEntry)) :
    m.foldl (fun groups p =>
        match p.snd.head? with
        | none => groups
        | some firstEmployee =>
          if searchTerm.isEmpty || matchesEmployee searchTerm firstEmployee then
            groups ++ [groupFor schedules p.fst]
          else groups) groups0
      = groups0 ++ m.filterMap (fun p =>
          match p.snd.head? with
          | none => none
          | some firstEmployee =>
            if searchTerm.isEmpty || matchesEmployee searchTerm firstEmployee then
              some (groupFor schedules p.fst)
            else none) := by
  induction m generalizing groups0 with
  | nil => simp
  | cons p t ih =>
    rw [List.foldl_cons, List.filterMap_cons]
    cases hh : p.snd.head? with
    | none =>
      dsimp only
      rw [ih]
    | some fe =>
      dsimp only
      by_cases hm : (searchTerm.isEmpty || matchesEmployee searchTerm fe) = true
      · rw [if_pos hm, if_pos hm, ih, List.append_assoc]
        rfl
      · rw [if_neg hm, if_neg hm, ih]

/-- A group has one entry per schedule containing the employee id. -/
theorem groupFor_length (schedules : List ComparedSchedule) (id : Nat) :
    (groupFor schedules id).length
      = (schedules.filter
          (fun sch => sch.employees.any (fun e => e.id == id))).length := by
  induction schedules with
  | nil => rfl
  | cons sch t ih =>
    rw [groupFor, List.filterMap_cons, List.filter_cons]
    cases hf : List.find? (fun e => e.id == id) sch.employees with
    | none =>
      have hany : sch.employees.any (fun e => e.id == id) = false := by
        rw [List.any_eq_false]
        exact fun x hx => List.find?_eq_none.mp hf x hx
      simp only [Option.map_none', hany, Bool.false_eq_true, if_false]
      exact ih
    | some fe =>
      have hpfe := @List.find?_some ScheduleEmployee (fun e => e.id == id) fe
        sch.employees hf
      have hany : sch.employees.any (fun e => e.id == id) = true :=
        List.any_eq_true.mpr ⟨fe, List.mem_of_find?_eq_some hf, hpfe⟩
      simp only [Option.map_some', hany, if_true, List.length_cons]
      rw [groupFor] at ih
      rw [ih]

/-- `filterMap` only depends on the function's values on the list. -/
theorem filterMap_congr_on {α β : Type} (f g : α → Option β) (l : List α)
    (h : ∀ a ∈ l, f a = g a) : l.filterMap f = l.filterMap g := by
  induction l with
  | nil => rfl
  | cons a t ih =>
    rw [List.filterMap_cons, List.filterMap_cons, h a (by simp),
      ih (fun a ha => h a (by simp [ha]))]

/-- **C6.** The compare-mode grouping emits, for every employee id in
order of first appearance across the input solutions, the list of
entries from exactly those solutions that contain the id, in solution
input order and without padding — provided the id's first-appearing
employee passes the search filter, which is evaluated once per id on the
representation found in the first solution containing it.  An id has a
group exactly when it occurs in some solution, each group has one entry
per containing solution, and on the concrete two-schedule scenario the
group for employee 7 has two entries and the group for employee 9 one. -/
theorem c6_grouped_comparison (schedules : List ComparedSchedule)
    (searchTerm : String) :
    (groupedEmployees schedules searchTerm
      = (firstIds (flatEmps schedules)).filterMap (fun id =>
          ((flatEmps schedules).find? (fun e => e.id == id)).bind
            (fun firstEmployee =>
              if searchTerm.isEmpty || matchesEmployee searchTerm firstEmployee then
                some (groupFor schedules id)
              else none)))
      ∧ (∀ id, id ∈ firstIds (flatEmps schedules)
          ↔ ∃ sch ∈ schedules, ∃ e ∈ sch.employees, e.id = id)
      ∧ (∀ id, (groupFor schedules id).length
          = (schedules.filter
              (fun sch => sch.employees.any (fun e => e.id == id))).length)
      ∧ ((groupedEmployees [exSchedX, exSchedY] "").map List.length = [2, 1]) := by
  refine ⟨?_, ?_, groupFor_length schedules, by rfl⟩
  · rw [groupedEmployees, buildEmployeeMap_eq, foldl_groups, List.nil_append,
      mkMapOf, List.filterMap_map]
    refine filterMap_congr_on _ _ _ (fun id _ => ?_)
    simp only [Function.comp_apply]
    rw [head?_filter_eq_find?]
    cases (flatEmps schedules).find? (fun e => e.id == id) <;> rfl
  · intro id
    rw [firstIds_mem]
    constructor
    · rintro ⟨e, he, rfl⟩
      obtain ⟨sch, hsch, hesch⟩ := List.mem_flatMap.mp he
      exact ⟨sch, hsch, e, hesch, rfl⟩
    · rintro ⟨sch, hsch, e, hesch, rfl⟩
      exact ⟨e, List.mem_flatMap.mpr ⟨sch, hsch, hesch⟩, rfl⟩

end StaffScheduling
